import Mathlib

/-!
Verification of the span-markup renderer (ipymarkup).

The development shallowly embeds `src/ipymarkup/markup.py`: spans and their
ordering, markup-document construction, the line wrapper, the HTML box
renderer and the ASCII matrix renderer.  Strings are embedded as `List Char`,
Python integers as `Int`.  The layout engine (`ipymarkup/multiline.py`) and
the argument type check (`ipymarkup/utils.py`) are not among the sources and
are modelled from the spec where needed; each such definition carries a
doc comment saying so.
-/

set_option maxHeartbeats 1000000

namespace Ipymarkup

/-- Lexicographic comparison of Python strings in code-point order, the
meaning of `self.type < other.type` in `Span.__lt__` (src/ipymarkup/markup.py). -/
def strLt : List Char → List Char → Bool
  | [], [] => false
  | [], _ :: _ => true
  | _ :: _, [] => false
  | x :: xs, y :: ys => if x < y then true else if y < x then false else strLt xs ys

/-- The source's `Span` (src/ipymarkup/markup.py): a half-open interval with an
optional category string, stored in the field the source calls `type`. -/
structure Span where
  start : Int
  stop : Int
  type : Option (List Char)
deriving Repr, DecidableEq

/-- `Span.__lt__` (src/ipymarkup/markup.py): compare by `start`, then `stop`,
then by category where `None` sorts first and two present categories compare
lexicographically; equal triples compare `False`. -/
def spanLt (a b : Span) : Bool :=
  if a.start ≠ b.start then decide (a.start < b.start)
  else if a.stop ≠ b.stop then decide (a.stop < b.stop)
  else if a.type ≠ b.type then
    match a.type, b.type with
    | Option.none, _ => true
    | _, Option.none => false
    | some x, some y => strLt x y
  else false

/-- The ordering exactly as the spec words it (§3): compare by `start`
ascending; tie-break by `stop` ascending; tie-break by category, an absent
category before any present one, present categories lexicographically;
intervals equal on all three compare equal. -/
def specSpanLt (a b : Span) : Bool :=
  if a.start < b.start then true
  else if b.start < a.start then false
  else if a.stop < b.stop then true
  else if b.stop < a.stop then false
  else
    match a.type, b.type with
    | Option.none, Option.none => false
    | Option.none, some _ => true
    | some _, Option.none => false
    | some x, some y => strLt x y

/-- The non-strict companion of `spanLt`, the relation under which Python's
`sorted` leaves a list arranged: `a` may precede `b` iff `not (b < a)`. -/
def spanLe (a b : Span) : Prop := spanLt b a = false

instance : DecidableRel spanLe := fun a b =>
  inferInstanceAs (Decidable (spanLt b a = false))

/-- Modelled from the spec: the dynamically typed argument universe that
`Span.__init__` sees.  The helper `assert_type` lives in `ipymarkup/utils.py`,
which is not among the sources; per the spec (§4.1, §7) construction "fails
with `InvalidTypeError` when `start` or `stop` is not an integer".  `int` is
an integer argument, the other constructors are representative non-integers. -/
inductive PyVal where
  | int (n : Int)
  | str (s : List Char)
  | none
deriving Repr, DecidableEq

def PyVal.isInt : PyVal → Bool
  | .int _ => true
  | _ => false

/-- The two construction failures of `Span.__init__`: the `TypeError` raised
by `assert_type` and the `ValueError('expected start < stop')`. -/
inductive SpanError where
  | typeError
  | rangeError
deriving Repr, DecidableEq

/-- `Span.__init__` (src/ipymarkup/markup.py): `assert_type(start, int)`,
`assert_type(stop, int)` (modelled from the spec, see `PyVal`), then reject
`start >= stop` with a range error, otherwise store the three fields. -/
def spanInit (start stop : PyVal) (type : Option (List Char)) : Except SpanError Span :=
  match start, stop with
  | .int a, .int b =>
    if a ≥ b then .error .rangeError
    else .ok ⟨a, b, type⟩
  | _, _ => .error .typeError

/-- Python `str()` restricted to the modelled universe, as used by
`Markup.__init__`'s `self.text = str(text)` (src/ipymarkup/markup.py). -/
def pyStr : PyVal → List Char
  | .int n => (toString n).toList
  | .str s => s
  | .none => ['N', 'o', 'n', 'e']

/-! ### The line-wrap engine

`Wrapper.__call__` (src/ipymarkup/markup.py) splits the text with Python's
`str.splitlines`, appends a space to every line but the last in place of the
removed break, and hands each line to `textwrap.TextWrapper.wrap` configured
with `expand_tabs=False`, `replace_whitespace=False`, `drop_whitespace=False`.
-/

/-- The characters Python's `str.splitlines` treats as line boundaries
(`\n`, `\r`, `\v`, `\f`, `\x1c`, `\x1d`, `\x1e`, `\x85`, ` `, ` `;
the pair `\r\n` counts as a single boundary and is handled separately). -/
def isLineBreak (c : Char) : Bool :=
  c = '\n' ∨ c = '\r' ∨ c.val = 0x0B ∨ c.val = 0x0C ∨ c.val = 0x1C ∨
    c.val = 0x1D ∨ c.val = 0x1E ∨ c.val = 0x85 ∨ c.val = 0x2028 ∨ c.val = 0x2029

/-- Worker for `splitlinesPy`: `acc` holds the current line reversed; the
`'\r''\n'` pair counts as one boundary, a trailing boundary yields no empty
final line. -/
def splitlinesGo (acc : List Char) : List Char → List (List Char)
  | [] => if acc.isEmpty then [] else [acc.reverse]
  | [c] => if isLineBreak c then [acc.reverse] else [(c :: acc).reverse]
  | c :: d :: rest =>
    if c = '\r' && d = '\n' then acc.reverse :: splitlinesGo [] rest
    else if isLineBreak c then acc.reverse :: splitlinesGo [] (d :: rest)
    else splitlinesGo (c :: acc) (d :: rest)

/-- Python `str.splitlines`: split at every line boundary, `\r\n` counting as
one boundary; a trailing boundary produces no empty final line and the empty
string produces no lines at all. -/
def splitlinesPy (cs : List Char) : List (List Char) :=
  splitlinesGo [] cs

/-- The whitespace class `\s` by which `textwrap` separates words
(space, tab and the ASCII line-break controls). -/
def pyIsSpace (c : Char) : Bool :=
  c = ' ' ∨ c = '\t' ∨ c = '\n' ∨ c = '\r' ∨ c.val = 0x0B ∨ c.val = 0x0C

/-- Split a line into maximal runs of whitespace and of non-whitespace
characters: the chunks `textwrap` packs into output lines (the module's
simple word separation; the claims here never depend on the extra intra-word
break opportunities of its default hyphen-aware separation). -/
def chunkify : List Char → List (List Char)
  | [] => []
  | c :: rest => chunkifyGo (pyIsSpace c) [c] rest
where
  /-- `sp` is the whitespace class of the run collected (reversed) in `acc`. -/
  chunkifyGo (sp : Bool) (acc : List Char) : List Char → List (List Char)
  | [] => [acc.reverse]
  | c :: rest =>
    if pyIsSpace c = sp then chunkifyGo sp (c :: acc) rest
    else acc.reverse :: chunkifyGo (pyIsSpace c) [c] rest

/-- The greedy packing loop of `textwrap.TextWrapper._wrap_chunks`: take
chunks while the running length stays within `width`; return the taken
chunks and the rest. -/
def takeLine (width : Nat) (cur : Nat) : List (List Char) → List (List Char) × List (List Char)
  | [] => ([], [])
  | c :: rest =>
    if cur + c.length ≤ width then
      let p := takeLine width (cur + c.length) rest
      (c :: p.1, p.2)
    else ([], c :: rest)

/-- `textwrap.TextWrapper._wrap_chunks` with `drop_whitespace=False`,
`replace_whitespace=False`, `expand_tabs=False` (CPython): repeatedly pack a
line greedily; when the next chunk alone exceeds `width`, break it at the
space left on the current line (`_handle_long_word` with
`break_long_words=True`); emit the current line when it is non-empty.  The
recursion is driven by fuel; every loop iteration of the source consumes at
least one character, so the fuel `pyWrap` supplies is never exhausted, and
the fuel-out case keeps the remaining chunks as one final line so that no
character is ever dropped. -/
def wrapChunksFuel (width : Nat) : Nat → List (List Char) → List (List Char)
  | 0, chunks => if chunks.isEmpty then [] else [chunks.flatten]
  | fuel + 1, chunks =>
    if chunks.isEmpty then [] else
    let p := takeLine width 0 chunks
    match p.2 with
    | [] => [p.1.flatten]
    | c :: rest =>
      if width < c.length then
        let curLen := (p.1.map List.length).sum
        let spaceLeft := width - curLen
        (p.1.flatten ++ c.take spaceLeft) ::
          wrapChunksFuel width fuel (c.drop spaceLeft :: rest)
      else
        if p.1.isEmpty then wrapChunksFuel width fuel (c :: rest)
        else p.1.flatten :: wrapChunksFuel width fuel (c :: rest)

/-- `textwrap.TextWrapper.wrap` on one break-free line, under the flags the
source passes (see `wrapChunksFuel`). -/
def pyWrap (width : Nat) (line : List Char) : List (List Char) :=
  wrapChunksFuel width (line.length + 1) (chunkify line)

/-- Attach `(start, stop)` offsets to consecutive folds, starting at `start`:
the offset bookkeeping of `Wrapper.__call__`. -/
def attachOffsets (start : Nat) : List (List Char) → List (Nat × Nat × List Char)
  | [] => []
  | f :: fs => (start, start + f.length, f) :: attachOffsets (start + f.length) fs

/-- The per-line loop of `Wrapper.__call__`: every line except the last gets
a single `' '` appended in place of the removed break, then is wrapped, and
the folds are labelled with running offsets. -/
def wrapLines (width : Nat) (start : Nat) : List (List Char) → List (Nat × Nat × List Char)
  | [] => []
  | [line] => attachOffsets start (pyWrap width line)
  | line :: rest =>
    let folds := pyWrap width (line ++ [' '])
    let total := (folds.map List.length).sum
    attachOffsets start folds ++ wrapLines width (start + total) rest

/-- `Wrapper.__call__` (src/ipymarkup/markup.py): the full wrapped-fold
sequence `(start, stop, content)` over a text. -/
def wrapperCall (width : Nat) (text : List Char) : List (Nat × Nat × List Char) :=
  wrapLines width 0 (splitlinesPy text)

/-- The folds form a contiguous chain of `[start, stop)` ranges running from
`a` to `b`, with `stop - start` the length of each content: the coverage
format claimed for the wrapper. -/
def isChain (a b : Nat) : List (Nat × Nat × List Char) → Bool
  | [] => a = b
  | (s, e, f) :: rest => s = a && e = a + f.length && isChain e b rest

/-- The text contains no `\r\n` pair (a two-character line boundary). -/
def noCRLF : List Char → Bool
  | [] => true
  | [_] => true
  | c :: d :: rest => !(c = '\r' && d = '\n') && noCRLF (d :: rest)

/-- The text ends with a line-boundary character. -/
def endsWithBreak (cs : List Char) : Bool :=
  match cs.getLast? with
  | Option.none => false
  | some c => isLineBreak c

/-- The text with every line-boundary character replaced by a single space:
the shape in which wrapping preserves the text. -/
def replaceBreaks (cs : List Char) : List Char :=
  cs.map fun c => if isLineBreak c then ' ' else c

/-! ### The overlap layout engine

`ipymarkup/multiline.py` (`Line`, `Multiline`, `get_multilines`) is not among
the sources; the definitions of this section are modelled from the spec.
-/

/-- Modelled from the spec: the layout engine's `Line` — a level-assigned row
segment `{level, start, stop, category}` (spec §3, "Layout group"). -/
structure MLine where
  start : Int
  stop : Int
  level : Nat
  type : Option (List Char)
deriving Repr, DecidableEq

/-- Modelled from the spec: the layout engine's `Multiline` — a group
`{start, stop, lines}` (spec §3).  `AsciiMarkup.as_ascii`
(src/ipymarkup/markup.py) re-uses the same constructor for the per-line
clipped slices. -/
structure Multiline where
  start : Int
  stop : Int
  lines : List MLine
deriving Repr, DecidableEq

/-- The smallest non-negative level not in `used` (spec §4.2 step 3/5: "assign
the new interval the smallest non-negative level not currently used by any
interval remaining active").  By pigeonhole the answer is at most
`used.length`, which bounds the search. -/
def mex (used : List Nat) : Nat :=
  mexGo used (used.length + 1) 0
where
  mexGo (used : List Nat) : Nat → Nat → Nat
  | 0, n => n
  | fuel + 1, n => if n ∈ used then mexGo used fuel (n + 1) else n

/-- Modelled from the spec: the greedy level assignment (spec §4.2 steps 1-3):
scan the intervals in order keeping an active set, drop from it every
interval with `stop <= current.start`, and give the current interval the
smallest level free among the remaining active intervals. -/
def distributeLevels (spans : List Span) : List MLine :=
  distGo [] spans
where
  distGo (active : List MLine) : List Span → List MLine
  | [] => []
  | sp :: rest =>
    let alive := active.filter fun m => sp.start < m.stop
    let line : MLine := ⟨sp.start, sp.stop, mex (alive.map MLine.level), sp.type⟩
    line :: distGo (line :: alive) rest

/-- The sorted, duplicate-free boundary points of the rows: every row start
and row stop. -/
def boundaryPoints (lines : List MLine) : List Int :=
  ((lines.map MLine.start ++ lines.map MLine.stop).dedup).insertionSort (· ≤ ·)

/-- One group per elementary interval (a pair of consecutive boundary
points): its lines are the rows active throughout the interval; intervals
covered by no row are dropped. -/
def mkMultis (lines : List MLine) (points : List Int) : List Multiline :=
  (points.zip points.tail).filterMap fun p =>
    let selected := lines.filter fun m => m.start < p.2 && p.1 < m.stop
    if selected.isEmpty then Option.none else some ⟨p.1, p.2, selected⟩

/-- Modelled from the spec: `get_multilines` (`ipymarkup/multiline.py`, not in
the sources).  Spec §4.2 fixes the level assignment and §8's scenarios fix
the output shape — e.g. `"ab cd"` with `[(0,2,X),(1,4,Y)]` must render with
`Y`'s label at column 1, which the renderer's `line.start == slice.start`
test (src/ipymarkup/markup.py) only produces when the groups are the
elementary intervals between consecutive span boundary points, each carrying
the level-assigned rows (with their original extents) active throughout it.
Groups are therefore sorted, pairwise disjoint, and every row of a group
covers the whole group. -/
def getMultilines (spans : List Span) : List Multiline :=
  mkMultis (distributeLevels spans) (boundaryPoints (distributeLevels spans))

/-! ### Markup documents -/

/-- `Markup.__init__` (src/ipymarkup/markup.py): the text is coerced with
`str()`, the spans are sorted with Python's `sorted` (stable under `spanLe`;
since incomparable spans are equal, any `spanLe`-sort yields the same list),
and the layout groups are computed once.  Construction never fails: the text
argument is coerced, not checked, and the span type check always passes for
actual spans. -/
structure MarkupDoc where
  text : List Char
  spans : List Span
  multilines : List Multiline
deriving Repr, DecidableEq

def mkMarkup (text : PyVal) (spans : List Span) : MarkupDoc :=
  let sorted := spans.insertionSort spanLe
  ⟨pyStr text, sorted, getMultilines sorted⟩

/-! ### Python slicing -/

/-- Normalize a Python slice boundary against a sequence of length `n`:
negative values count from the end, then clamp into `[0, n]`. -/
def pyIndex (n : Nat) (i : Int) : Nat :=
  if i < 0 then (i + n).toNat else min i.toNat n

/-- Python `s[a:b]` on strings. -/
def pySliceII (s : List Char) (a b : Int) : List Char :=
  (s.take (pyIndex s.length b)).drop (pyIndex s.length a)

/-- Python `s[a:]` on strings. -/
def pySliceFrom (s : List Char) (a : Int) : List Char :=
  s.drop (pyIndex s.length a)

/-- Python `s[:b]` on strings. -/
def pyTakeI (s : List Char) (b : Int) : List Char :=
  s.take (pyIndex s.length b)

/-! ### The ASCII matrix renderer

`AsciiMarkup.as_ascii` (src/ipymarkup/markup.py): walk the wrapped folds,
clip the pending groups against each fold, paint a dash matrix and overlay
the labels.  The matrix is a list of rows of characters; every write is also
logged as a `(row, column)` pair so that the in-bounds claim can speak about
exactly the indices the source uses (`matrix[line.level][x - start]`).
A write at a negative column is logged and leaves the matrix unchanged
(the in-bounds theorem shows no reachable write is negative or past the
allocated extents, so the embedded matrix agrees with the source's). -/

structure PaintState where
  mat : List (List Char)
  log : List (Nat × Int)
deriving Repr, DecidableEq

def setCellL (st : PaintState) (r : Nat) (c : Int) (ch : Char) : PaintState :=
  { mat := if 0 ≤ c then st.mat.set r ((st.mat.getD r []).set c.toNat ch) else st.mat
    log := st.log ++ [(r, c)] }

/-- Paint `n` cells of row `lvl` with `'-'`, starting at column `col`:
`for x in range(slice.start, slice.stop): matrix[line.level][x - start] = '-'`. -/
def paintRun (st : PaintState) (lvl : Nat) (col : Int) : Nat → PaintState
  | 0 => st
  | n + 1 => paintRun (setCellL st lvl col '-') lvl (col + 1) n

/-- The dash pass of `as_ascii`: every row of every slice paints the whole
clipped slice range at its level. -/
def dashSlices (s : Int) (slices : List Multiline) (st : PaintState) : PaintState :=
  slices.foldl
    (fun st sl =>
      sl.lines.foldl
        (fun st r => paintRun st r.level (sl.start - s) (sl.stop - sl.start).toNat) st)
    st

/-- Python truthiness of a span category: `None` and the empty string are
falsy (`if line.type` in the label pass). -/
def typeNonempty : Option (List Char) → Bool
  | Option.none => false
  | some s => !s.isEmpty

/-- The label text the source writes for row `r` of a slice starting at
`sliceStart` on the fold `[s, s + w)`:
`type[:min(line.stop - line.start, width - (slice.start - start))]`. -/
def labelTrunc (r : MLine) (sliceStart s : Int) (w : Nat) : List Char :=
  pyTakeI (r.type.getD []) (min (r.stop - r.start) ((w : Int) - (sliceStart - s)))

/-- The label pass of `as_ascii` as the list of writes it performs, in source
order: one `(level, column, characters)` write per slice row whose category
is truthy and whose true start coincides with the clipped slice start. -/
def labelWrites (s : Int) (w : Nat) (slices : List Multiline) : List (Nat × Int × List Char) :=
  slices.flatMap fun sl =>
    sl.lines.filterMap fun r =>
      if typeNonempty r.type && r.start == sl.start then
        some (r.level, sl.start - s, labelTrunc r sl.start s w)
      else Option.none

/-- Write the characters of one label into the matrix:
`for x, char in enumerate(type): matrix[line.level][slice.start - start + x] = char`. -/
def applyWrite (st : PaintState) (wr : Nat × Int × List Char) : PaintState :=
  writeGo wr.1 wr.2.1 wr.2.2 st
where
  writeGo (lvl : Nat) (col : Int) : List Char → PaintState → PaintState
  | [], st => st
  | ch :: rest, st => writeGo lvl (col + 1) rest (setCellL st lvl col ch)

/-- The label pass: apply the label writes after all dashes are painted. -/
def labelPhase (s : Int) (w : Nat) (slices : List Multiline) (st : PaintState) : PaintState :=
  (labelWrites s w slices).foldl applyWrite st

/-- One clipped slice:
`Multiline(max(multi.start, start), min(multi.stop, stop), multi.lines)`. -/
def clipM (m : Multiline) (s e : Int) : Multiline :=
  ⟨max m.start s, min m.stop e, m.lines⟩

/-- The slice-collection loop of `as_ascii` over the pending groups (the
source keeps an index into `self.multilines`; here the pending suffix is
passed directly): stop before a group starting at or after the fold's end,
clip each group met to the fold, and advance past a group only once its end
is within the fold. -/
def sliceLine (s e : Int) : List Multiline → List Multiline × List Multiline
  | [] => ([], [])
  | m :: rest =>
    if m.start ≥ e then ([], m :: rest)
    else
      if m.stop ≤ e then
        let p := sliceLine s e rest
        (clipM m s e :: p.1, p.2)
      else ([clipM m s e], m :: rest)

/-- `height - 1` of the matrix: Python's
`max(line.level for slice in slices for line in slice.lines)` (the source
only evaluates it when `slices` is non-empty, and no reachable slice has an
empty `lines`, so the `0` default never shows through). -/
def maxLevels (slices : List Multiline) : Nat :=
  ((slices.flatMap Multiline.lines).map MLine.level).foldl max 0

/-- `line.replace('\t', ' ')`: the emitted content line. -/
def replaceTabs (cs : List Char) : List Char :=
  cs.map fun c => if c = '\t' then ' ' else c

/-- Everything `as_ascii` produces for one wrapped fold: the fold bounds, the
emitted content line, the clipped slices, the matrix after the dash pass,
the final matrix (its rows are the emitted annotation rows) and the log of
every `(row, column)` index written during painting. -/
structure Block where
  start : Nat
  stop : Nat
  content : List Char
  slices : List Multiline
  dash : List (List Char)
  rows : List (List Char)
  log : List (Nat × Int)
deriving Repr, DecidableEq

/-- Render one fold: with no slices only the content line is emitted;
otherwise allocate `height × len(line)` spaces, paint dashes, then labels. -/
def mkBlock (fold : Nat × Nat × List Char) (slices : List Multiline) : Block :=
  let s := fold.1
  let content := fold.2.2
  if slices.isEmpty then ⟨s, fold.2.1, replaceTabs content, slices, [], [], []⟩
  else
    let height := maxLevels slices + 1
    let width := content.length
    let st0 : PaintState := ⟨List.replicate height (List.replicate width ' '), []⟩
    let st1 := dashSlices (s : Int) slices st0
    let st2 := labelPhase (s : Int) width slices st1
    ⟨s, fold.2.1, replaceTabs content, slices, st1.mat, st2.mat, st2.log⟩

/-- The fold loop of `as_ascii`, threading the pending-group suffix. -/
def renderBlocks (rem : List Multiline) : List (Nat × Nat × List Char) → List Block
  | [] => []
  | fold :: rest =>
    let p := sliceLine (fold.1 : Int) (fold.2.1 : Int) rem
    mkBlock fold p.1 :: renderBlocks p.2 rest

/-- `AsciiMarkup` (src/ipymarkup/markup.py): a markup document plus the
wrap width (`width=70` by default in the source). -/
structure AsciiDoc where
  doc : MarkupDoc
  width : Nat
deriving Repr, DecidableEq

def mkAscii (text : PyVal) (spans : List Span) (width : Nat) : AsciiDoc :=
  ⟨mkMarkup text spans, width⟩

def asciiBlocks (d : AsciiDoc) : List Block :=
  renderBlocks d.doc.multilines (wrapperCall d.width d.doc.text)

/-- The full `as_ascii` sequence: for each fold the content line followed by
the matrix rows. -/
def asAsciiLines (d : AsciiDoc) : List (List Char) :=
  (asciiBlocks d).flatMap fun b => b.content :: b.rows

/-- Claim-side notion: the surviving rows of a fold `[s, e)` — every row of a
group intersecting the fold, kept when its own extent meets the fold. -/
def survivors (multis : List Multiline) (s e : Int) : List MLine :=
  ((multis.filter fun m => m.start < e && s < m.stop).flatMap Multiline.lines).filter
    fun r => max r.start s < min r.stop e

/-- Read a matrix cell (out-of-range reads default to the space fill). -/
def cellAt (mat : List (List Char)) (i j : Nat) : Char :=
  (mat.getD i []).getD j ' '

/-- The largest level among the given rows (`0` when there are none). -/
def maxLevelOf (rows : List MLine) : Nat :=
  (rows.map MLine.level).foldl max 0

/-- The label write `wr = (level, column, characters)` touches the matrix
cell `(i, j)`. -/
def writeCovers (wr : Nat × Int × List Char) (i j : Nat) : Prop :=
  wr.1 = i ∧ wr.2.1 ≤ (j : Int) ∧ (j : Int) < wr.2.1 + wr.2.2.length

instance (wr : Nat × Int × List Char) (i j : Nat) : Decidable (writeCovers wr i j) :=
  inferInstanceAs (Decidable (_ ∧ _ ∧ _))

/-! ### The HTML box renderer -/

/-- One string yielded by `BoxMarkup.as_html`: either a slice of the document
text or emitted markup (tags and label text; their exact characters depend on
the colour tables of `ipymarkup/color.py`, which the spec leaves outside the
core, and no claim reads them). -/
inductive HtmlPiece where
  | tag (s : List Char)
  | text (s : List Char)
deriving Repr, DecidableEq

/-- The span loop of `BoxMarkup.as_html` (src/ipymarkup/markup.py), threading
`previous`: yield the gap `text[previous:start]`, the opening tag, the
covered text `text[start:stop]`, the optional label markup, the closing tag;
after the loop yield `text[previous:]`. -/
def boxPieces (lab : Bool) (txt : List Char) (prev : Int) : List Span → List HtmlPiece
  | [] => [.text (pySliceFrom txt prev)]
  | sp :: rest =>
    .text (pySliceII txt prev sp.start) ::
    .tag ['<', 's', 'p', 'a', 'n', '>'] ::
    .text (pySliceII txt sp.start sp.stop) ::
    ((if lab && typeNonempty sp.type then
        [HtmlPiece.tag ['<', 's', 'u', 'p', '>'], .tag (sp.type.getD []),
         .tag ['<', '/', 's', 'u', 'p', '>']]
      else []) ++
      (.tag ['<', '/', 's', 'p', 'a', 'n', '>'] :: boxPieces lab txt sp.stop rest))

/-- `BoxMarkup.as_html` over a document (`label = False` for `BoxMarkup`). -/
def boxAsHtml (m : MarkupDoc) : List HtmlPiece :=
  .tag ['<', 'd', 'i', 'v', '>'] :: (boxPieces false m.text 0 m.spans ++ [.tag ['<', 'd', 'i', 'v', '>']])

/-- The document-text slices among the yields, concatenated in order. -/
def joinTexts (ps : List HtmlPiece) : List Char :=
  (ps.filterMap fun p => match p with | .text s => some s | .tag _ => Option.none).flatten

/-- Adjacent spans of the (sorted) list never overlap: each span's start is
at least the previous span's stop. -/
def pairwiseSep : List Span → Bool
  | [] => true
  | [_] => true
  | a :: b :: rest => decide (a.stop ≤ b.start) && pairwiseSep (b :: rest)

/-- The category comparison used in the last tie-break of the span order:
absent sorts first, two present categories compare lexicographically. -/
def optTypeLt : Option (List Char) → Option (List Char) → Bool
  | Option.none, Option.none => false
  | Option.none, some _ => true
  | some _, Option.none => false
  | some x, some y => strLt x y

/-- Every row of the matrix has length `w`. -/
def rowsLen (mat : List (List Char)) (w : Nat) : Prop :=
  ∀ row ∈ mat, row.length = w

/-- The matrix shape: height `h`, every row of length `w`. -/
def matP (h w : Nat) (st : PaintState) : Prop :=
  st.mat.length = h ∧ rowsLen st.mat w

/-- The contents of a fold sequence, concatenated in order. -/
def foldContents (folds : List (Nat × Nat × List Char)) : List Char :=
  (folds.map fun f => f.2.2).flatten

/-- The lines of a text joined with a single space after every line but the
last: the shape `Wrapper.__call__` preserves. -/
def addSpacesJoin : List (List Char) → List Char
  | [] => []
  | [l] => l
  | l :: rest => l ++ ' ' :: addSpacesJoin rest

/-! ### Lemmas on the span order -/

theorem strLt_irrefl (x : List Char) : strLt x x = false := by
  induction x with
  | nil => rfl
  | cons c cs ih => simp [strLt, ih]

theorem strLt_trans :
    ∀ x y z : List Char, strLt x y = true → strLt y z = true → strLt x z = true := by
  intro x
  induction x with
  | nil =>
    intro y z h1 h2
    cases y with
    | nil => simp [strLt] at h1
    | cons b bs =>
      cases z with
      | nil => simp [strLt] at h2
      | cons c cs => simp [strLt]
  | cons a as ih =>
    intro y z h1 h2
    cases y with
    | nil => simp [strLt] at h1
    | cons b bs =>
      cases z with
      | nil => simp [strLt] at h2
      | cons c cs =>
        simp only [strLt] at h1 h2 ⊢
        by_cases hab : a < b
        · by_cases hbc : b < c
          · simp [lt_trans hab hbc]
          · simp only [if_neg hbc] at h2
            by_cases hcb : c < b
            · simp [hcb] at h2
            · have hbc' : b = c := le_antisymm (not_lt.mp hcb) (not_lt.mp hbc)
              subst hbc'
              simp [hab]
        · simp only [if_neg hab] at h1
          by_cases hba : b < a
          · simp [hba] at h1
          · have hab' : a = b := le_antisymm (not_lt.mp hba) (not_lt.mp hab)
            subst hab'
            by_cases hac : a < c
            · simp [hac]
            · simp only [if_neg hac] at h2 ⊢
              by_cases hca : c < a
              · simp [hca] at h2
              · simp only [if_neg hca] at h2 ⊢
                simp only [lt_irrefl, if_false] at h1
                exact ih bs cs h1 h2

theorem strLt_conn :
    ∀ x y : List Char, strLt x y = false → strLt y x = false → x = y := by
  intro x
  induction x with
  | nil =>
    intro y h1 _
    cases y with
    | nil => rfl
    | cons b bs => simp [strLt] at h1
  | cons a as ih =>
    intro y h1 h2
    cases y with
    | nil => simp [strLt] at h2
    | cons b bs =>
      simp only [strLt] at h1 h2
      by_cases hab : a < b
      · simp [hab] at h1
      · by_cases hba : b < a
        · simp [hba, if_neg hab] at h2
        · have hab' : a = b := le_antisymm (not_lt.mp hba) (not_lt.mp hab)
          subst hab'
          simp only [if_neg hab] at h1 h2
          rw [ih bs h1 h2]

theorem optTypeLt_irrefl (t : Option (List Char)) : optTypeLt t t = false := by
  cases t with
  | none => rfl
  | some s => simp [optTypeLt, strLt_irrefl]

theorem optTypeLt_trans (a b c : Option (List Char)) :
    optTypeLt a b = true → optTypeLt b c = true → optTypeLt a c = true := by
  cases a <;> cases b <;> cases c <;> simp [optTypeLt]
  exact fun h1 h2 => strLt_trans _ _ _ h1 h2

theorem optTypeLt_conn (a b : Option (List Char)) :
    optTypeLt a b = false → optTypeLt b a = false → a = b := by
  cases a <;> cases b <;> simp [optTypeLt]
  exact fun h1 h2 => strLt_conn _ _ h1 h2

/-- `Span.__lt__` unfolded into the lexicographic shape. -/
theorem spanLt_iff (a b : Span) :
    spanLt a b = true ↔
      a.start < b.start ∨
        (a.start = b.start ∧
          (a.stop < b.stop ∨ (a.stop = b.stop ∧ optTypeLt a.type b.type = true))) := by
  unfold spanLt
  by_cases hs : a.start = b.start
  · by_cases hp : a.stop = b.stop
    · by_cases ht : a.type = b.type
      · simp only [hs, hp, ht, ne_eq, not_true_eq_false, if_false, ite_self]
        simp [hs, hp, ht, optTypeLt_irrefl]
      · simp only [ne_eq, hs, not_true_eq_false, if_false, hp, ht, not_false_eq_true, if_true]
        cases hat : a.type <;> cases hbt : b.type <;>
          simp_all [optTypeLt, hs, hp]
    · simp only [ne_eq, hs, not_true_eq_false, if_false, hp, not_false_eq_true, if_true]
      simp [hs, hp]
  · simp only [ne_eq, hs, not_false_eq_true, if_true]
    simp [hs]

theorem spanLt_irrefl (a : Span) : spanLt a a = false := by
  rw [Bool.eq_false_iff]
  intro h
  rcases (spanLt_iff a a).mp h with h1 | ⟨_, h2 | ⟨_, h3⟩⟩
  · omega
  · omega
  · rw [optTypeLt_irrefl] at h3
    exact Bool.false_ne_true h3

theorem spanLt_trans (a b c : Span) :
    spanLt a b = true → spanLt b c = true → spanLt a c = true := by
  intro h1 h2
  rw [spanLt_iff] at h1 h2 ⊢
  rcases h1 with h1 | ⟨e1, h1⟩
  · rcases h2 with h2 | ⟨e2, _⟩
    · exact Or.inl (lt_trans h1 h2)
    · exact Or.inl (e2 ▸ h1)
  · rcases h2 with h2 | ⟨e2, h2⟩
    · exact Or.inl (e1 ▸ h2)
    · refine Or.inr ⟨e1.trans e2, ?_⟩
      rcases h1 with h1 | ⟨f1, h1⟩
      · rcases h2 with h2 | ⟨f2, _⟩
        · exact Or.inl (lt_trans h1 h2)
        · exact Or.inl (f2 ▸ h1)
      · rcases h2 with h2 | ⟨f2, h2⟩
        · exact Or.inl (f1 ▸ h2)
        · exact Or.inr ⟨f1.trans f2, optTypeLt_trans _ _ _ h1 h2⟩

theorem spanLt_conn (a b : Span) :
    spanLt a b = false → spanLt b a = false → a = b := by
  intro h1 h2
  rw [Bool.eq_false_iff, ne_eq, spanLt_iff] at h1 h2
  push_neg at h1 h2
  have hs : a.start = b.start := le_antisymm h2.1 h1.1
  have hp : a.stop = b.stop := le_antisymm (h2.2 hs.symm).1 (h1.2 hs).1
  have ht : a.type = b.type := by
    apply optTypeLt_conn
    · exact Bool.not_eq_true _ ▸ ((h1.2 hs).2 hp)
    · exact Bool.not_eq_true _ ▸ ((h2.2 hs.symm).2 hp.symm)
  cases a; cases b
  simp_all

theorem bool_ext {x y : Bool} (h : (x = true) ↔ (y = true)) : x = y := by
  cases x <;> cases y <;> simp_all

/-- The spec-side order unfolded into the same lexicographic shape. -/
theorem specSpanLt_iff (a b : Span) :
    specSpanLt a b = true ↔
      a.start < b.start ∨
        (a.start = b.start ∧
          (a.stop < b.stop ∨ (a.stop = b.stop ∧ optTypeLt a.type b.type = true))) := by
  unfold specSpanLt
  by_cases h1 : a.start < b.start
  · simp [h1]
  · by_cases h2 : b.start < a.start
    · have : a.start ≠ b.start := by omega
      simp [if_neg h1, if_pos h2, h1, this]
    · have he : a.start = b.start := le_antisymm (not_lt.mp h2) (not_lt.mp h1)
      simp only [if_neg h1, if_neg h2]
      by_cases h3 : a.stop < b.stop
      · simp [h3, he, h1]
      · by_cases h4 : b.stop < a.stop
        · have : a.stop ≠ b.stop := by omega
          simp [if_neg h3, if_pos h4, h1, h3, this]
        · have hpe : a.stop = b.stop := le_antisymm (not_lt.mp h4) (not_lt.mp h3)
          simp only [if_neg h3, if_neg h4]
          cases hat : a.type <;> cases hbt : b.type <;>
            simp [optTypeLt, he, hpe, h1, h3]

theorem spanLt_false_of_eq_fields (a b : Span)
    (h1 : a.start = b.start) (h2 : a.stop = b.stop) (h3 : a.type = b.type) :
    spanLt a b = false := by
  rw [Bool.eq_false_iff, ne_eq, spanLt_iff]
  rintro (h | ⟨_, h | ⟨_, h⟩⟩)
  · omega
  · omega
  · rw [h3, optTypeLt_irrefl] at h
    exact Bool.false_ne_true h

/-- C4: `Span.__lt__` is exactly the spec's lexicographic order — `a < b`
holds iff `(start, stop)` is lexicographically smaller, or those are equal
and `a` has no category while `b` has one, or both categories are present
and `a`'s is lexicographically smaller; spans equal on all three fields
compare below each other in neither direction. -/
theorem claim_C4 (a b : Span) :
    spanLt a b = specSpanLt a b ∧
      (a.start = b.start → a.stop = b.stop → a.type = b.type →
        spanLt a b = false ∧ spanLt b a = false) := by
  constructor
  · exact bool_ext (by rw [spanLt_iff, specSpanLt_iff])
  · intro h1 h2 h3
    exact ⟨spanLt_false_of_eq_fields a b h1 h2 h3,
      spanLt_false_of_eq_fields b a h1.symm h2.symm h3.symm⟩

theorem claim_C4_witness :
    spanLt ⟨0, 2, some ['X']⟩ ⟨0, 2, some ['X']⟩ = false ∧
      spanLt ⟨0, 2, Option.none⟩ ⟨0, 2, some ['X']⟩ = specSpanLt ⟨0, 2, Option.none⟩ ⟨0, 2, some ['X']⟩ :=
  ⟨((claim_C4 ⟨0, 2, some ['X']⟩ ⟨0, 2, some ['X']⟩).2 rfl rfl rfl).1,
    (claim_C4 ⟨0, 2, Option.none⟩ ⟨0, 2, some ['X']⟩).1⟩

/-- C5: `Span` construction fails with the type error exactly when `start` or
`stop` is not an integer, fails with the range error exactly when both are
integers with `start >= stop` (never clamped), and for integers with
`start < stop` succeeds storing the three fields unchanged. -/
theorem claim_C5 (a b : PyVal) (ty : Option (List Char)) :
    (spanInit a b ty = .error .typeError ↔ a.isInt = false ∨ b.isInt = false) ∧
      (spanInit a b ty = .error .rangeError ↔
        ∃ m n : Int, a = .int m ∧ b = .int n ∧ n ≤ m) ∧
      (∀ m n : Int, a = .int m → b = .int n → m < n →
        spanInit a b ty = .ok ⟨m, n, ty⟩) := by
  refine ⟨?_, ?_, ?_⟩
  · cases a <;> cases b <;> simp [spanInit, PyVal.isInt] <;>
      rename_i m n <;> by_cases h : m ≥ n <;> simp [h]
  · constructor
    · intro hE
      cases a <;> cases b <;> simp [spanInit] at hE
      rename_i m n
      by_cases h : m ≥ n
      · exact ⟨m, n, rfl, rfl, h⟩
      · simp [h] at hE
    · rintro ⟨m, n, rfl, rfl, hle⟩
      simp [spanInit, hle]
  · intro m n hm hn hlt
    subst hm; subst hn
    simp [spanInit, not_le.mpr hlt, hlt]

theorem claim_C5_witness :
    spanInit (.int 1) (.int 3) Option.none = .ok ⟨1, 3, Option.none⟩ ∧
      (spanInit (.str ['a']) (.int 3) Option.none = .error .typeError ↔
        PyVal.isInt (.str ['a']) = false ∨ PyVal.isInt (.int 3) = false) :=
  ⟨(claim_C5 (.int 1) (.int 3) Option.none).2.2 1 3 rfl rfl (by decide),
    (claim_C5 (.str ['a']) (.int 3) Option.none).1⟩

/-- C7: `Span.__lt__` is a strict weak ordering — irreflexive, transitive,
and consistent with equality (two mutually incomparable spans are equal, so
incomparability is trivially transitive); consequently sorting under it is
deterministic, and sorting an already-sorted list leaves it unchanged. -/
theorem claim_C7 :
    (∀ a : Span, spanLt a a = false) ∧
      (∀ a b c : Span, spanLt a b = true → spanLt b c = true → spanLt a c = true) ∧
      (∀ a b : Span, spanLt a b = false → spanLt b a = false → a = b) ∧
      (∀ l : List Span, l.Sorted spanLe → l.insertionSort spanLe = l) :=
  ⟨spanLt_irrefl, spanLt_trans, spanLt_conn,
    fun _ h => List.Sorted.insertionSort_eq h⟩

theorem claim_C7_witness :
    List.insertionSort spanLe [Span.mk 0 2 Option.none, Span.mk 1 4 Option.none] =
      [Span.mk 0 2 Option.none, Span.mk 1 4 Option.none] :=
  claim_C7.2.2.2 _ (by simp [List.Sorted, List.pairwise_cons]; decide)

/-- C10: `Markup` construction never rejects the text argument — any value is
coerced with `str()`, the coerced string is what the document stores, and
rendering a document built from any value is rendering the document built
from the coerced string. -/
theorem claim_C10 (v : PyVal) (spans : List Span) (width : Nat) :
    (mkMarkup v spans).text = pyStr v ∧
      asAsciiLines (mkAscii v spans width) =
        asAsciiLines (mkAscii (.str (pyStr v)) spans width) := by
  constructor
  · rfl
  · rfl

/-! ### Lemmas on the wrapper -/

theorem chunkifyGo_flatten :
    ∀ (rest : List Char) (sp : Bool) (acc : List Char),
      (chunkify.chunkifyGo sp acc rest).flatten = acc.reverse ++ rest := by
  intro rest
  induction rest with
  | nil => intro sp acc; simp [chunkify.chunkifyGo]
  | cons c rest ih =>
    intro sp acc
    rw [chunkify.chunkifyGo]
    by_cases h : pyIsSpace c = sp
    · rw [if_pos h, ih]
      simp
    · rw [if_neg h]
      simp only [List.flatten_cons, ih]
      simp

theorem chunkify_flatten (cs : List Char) : (chunkify cs).flatten = cs := by
  cases cs with
  | nil => rfl
  | cons c rest => rw [chunkify, chunkifyGo_flatten]; simp

theorem chunkifyGo_ne_nil :
    ∀ (rest : List Char) (sp : Bool) (acc : List Char), acc ≠ [] →
      ∀ ch ∈ chunkify.chunkifyGo sp acc rest, ch ≠ [] := by
  intro rest
  induction rest with
  | nil =>
    intro sp acc hacc ch hch
    rw [chunkify.chunkifyGo] at hch
    rcases List.mem_singleton.mp hch with rfl
    simpa using hacc
  | cons c rest ih =>
    intro sp acc hacc ch hch
    rw [chunkify.chunkifyGo] at hch
    by_cases h : pyIsSpace c = sp
    · rw [if_pos h] at hch
      exact ih sp (c :: acc) (List.cons_ne_nil c acc) ch hch
    · rw [if_neg h] at hch
      rcases List.mem_cons.mp hch with rfl | hmem
      · simpa using hacc
      · exact ih (pyIsSpace c) [c] (List.cons_ne_nil c []) ch hmem

theorem chunkify_ne_nil (cs : List Char) : ∀ ch ∈ chunkify cs, ch ≠ [] := by
  cases cs with
  | nil => intro ch hch; simp [chunkify] at hch
  | cons c rest =>
    rw [chunkify]
    exact chunkifyGo_ne_nil rest (pyIsSpace c) [c] (List.cons_ne_nil c [])

theorem takeLine_append :
    ∀ (chunks : List (List Char)) (width cur : Nat),
      (takeLine width cur chunks).1 ++ (takeLine width cur chunks).2 = chunks := by
  intro chunks
  induction chunks with
  | nil => intro width cur; rfl
  | cons c rest ih =>
    intro width cur
    rw [takeLine]
    by_cases h : cur + c.length ≤ width
    · simp only [if_pos h, List.cons_append, List.cons.injEq, true_and]
      exact ih width (cur + c.length)
    · simp [if_neg h]

/-- A list with a non-empty member flattens to a non-empty list. -/
theorem flatten_ne_nil {l : List (List Char)} {x : List Char}
    (hx : x ∈ l) (hne : x ≠ []) : l.flatten ≠ [] := by
  intro h
  rcases List.exists_mem_of_ne_nil x hne with ⟨y, hy⟩
  have hmem : y ∈ l.flatten := List.mem_join.mpr ⟨x, hx, hy⟩
  rw [h] at hmem
  simp at hmem

theorem wrapChunksFuel_flatten :
    ∀ (fuel width : Nat) (chunks : List (List Char)),
      (wrapChunksFuel width fuel chunks).flatten = chunks.flatten := by
  intro fuel
  induction fuel with
  | zero =>
    intro width chunks
    rw [wrapChunksFuel]
    by_cases h : chunks.isEmpty
    · rw [if_pos h, List.isEmpty_iff.mp h]
    · rw [if_neg h]; simp
  | succ fuel ih =>
    intro width chunks
    rw [wrapChunksFuel]
    by_cases h : chunks.isEmpty
    · rw [if_pos h, List.isEmpty_iff.mp h]
    · rw [if_neg h]
      have hsplit := takeLine_append chunks width 0
      rcases h2 : (takeLine width 0 chunks).2 with _ | ⟨c, rest⟩
      · simp only [h2]
        rw [h2, List.append_nil] at hsplit
        rw [hsplit]
        simp
      · simp only [h2]
        rw [h2] at hsplit
        by_cases hlong : width < c.length
        · rw [if_pos hlong]
          simp only [List.flatten_cons, ih]
          conv_rhs => rw [← hsplit]
          simp only [List.flatten_append, List.flatten_cons, List.append_assoc]
          rw [← List.append_assoc (List.take _ c), List.take_append_drop]
        · rw [if_neg hlong]
          by_cases hcur : (takeLine width 0 chunks).1.isEmpty
          · rw [if_pos hcur, ih]
            conv_rhs => rw [← hsplit]
            rw [List.isEmpty_iff.mp hcur]
            rfl
          · rw [if_neg hcur]
            simp only [List.flatten_cons, ih]
            conv_rhs => rw [← hsplit]
            simp

theorem pyWrap_flatten (width : Nat) (line : List Char) :
    (pyWrap width line).flatten = line := by
  rw [pyWrap, wrapChunksFuel_flatten, chunkify_flatten]

theorem wrapChunksFuel_ne_nil :
    ∀ (fuel width : Nat) (chunks : List (List Char)), 1 ≤ width →
      (∀ ch ∈ chunks, ch ≠ []) →
      ∀ f ∈ wrapChunksFuel width fuel chunks, f ≠ [] := by
  intro fuel
  induction fuel with
  | zero =>
    intro width chunks _ hch f hf
    rw [wrapChunksFuel] at hf
    by_cases h : chunks.isEmpty
    · rw [if_pos h] at hf; simp at hf
    · rw [if_neg h] at hf
      rcases List.mem_singleton.mp hf with rfl
      have hne : chunks ≠ [] := by simpa using h
      rcases List.exists_mem_of_ne_nil chunks hne with ⟨x, hx⟩
      exact flatten_ne_nil hx (hch x hx)
  | succ fuel ih =>
    intro width chunks hw hch f hf
    rw [wrapChunksFuel] at hf
    by_cases h : chunks.isEmpty
    · rw [if_pos h] at hf; simp at hf
    · rw [if_neg h] at hf
      have hsplit := takeLine_append chunks width 0
      have hmem1 : ∀ x ∈ (takeLine width 0 chunks).1, x ∈ chunks := by
        intro x hx
        rw [← hsplit]
        exact List.mem_append_left _ hx
      have hmem2 : ∀ x ∈ (takeLine width 0 chunks).2, x ∈ chunks := by
        intro x hx
        rw [← hsplit]
        exact List.mem_append_right _ hx
      rcases h2 : (takeLine width 0 chunks).2 with _ | ⟨c, rest⟩
      · simp only [h2] at hf
        rcases List.mem_singleton.mp hf with rfl
        rw [h2, List.append_nil] at hsplit
        rw [hsplit]
        have hne : chunks ≠ [] := by simpa using h
        rcases List.exists_mem_of_ne_nil chunks hne with ⟨x, hx⟩
        exact flatten_ne_nil hx (hch x hx)
      · simp only [h2] at hf
        by_cases hlong : width < c.length
        · rw [if_pos hlong] at hf
          rcases List.mem_cons.mp hf with rfl | hmem
          · intro habs
            rcases List.append_eq_nil.mp habs with ⟨hflat, htake⟩
            by_cases hcur : (takeLine width 0 chunks).1 = []
            · rw [hcur] at htake
              have hlen := congrArg List.length htake
              rw [List.length_take] at hlen
              simp only [List.map_nil, List.sum_nil, Nat.sub_zero, List.length_nil] at hlen
              have := Nat.min_eq_zero_iff.mp hlen
              omega
            · rcases List.exists_mem_of_ne_nil _ hcur with ⟨x, hx⟩
              exact flatten_ne_nil hx (hch x (hmem1 x hx)) hflat
          · refine ih width _ hw ?_ f hmem
            intro ch hch'
            rcases List.mem_cons.mp hch' with rfl | hmem'
            · intro habs
              have hlen := congrArg List.length habs
              rw [List.length_drop] at hlen
              simp at hlen
              have hsub : width - (((takeLine width 0 chunks).1.map List.length)).sum ≤ width :=
                Nat.sub_le _ _
              omega
            · exact hch ch (hmem2 ch (h2 ▸ List.mem_cons_of_mem c hmem'))
        · rw [if_neg hlong] at hf
          by_cases hcur : (takeLine width 0 chunks).1.isEmpty
          · rw [if_pos hcur] at hf
            exact ih width _ hw (fun ch hch' => hch ch (hmem2 ch (h2 ▸ hch'))) f hf
          · rw [if_neg hcur] at hf
            rcases List.mem_cons.mp hf with rfl | hmem
            · have hne : (takeLine width 0 chunks).1 ≠ [] := by simpa using hcur
              rcases List.exists_mem_of_ne_nil _ hne with ⟨x, hx⟩
              exact flatten_ne_nil hx (hch x (hmem1 x hx))
            · exact ih width _ hw (fun ch hch' => hch ch (hmem2 ch (h2 ▸ hch'))) f hmem

theorem pyWrap_ne_nil (width : Nat) (line : List Char) (hw : 1 ≤ width) :
    ∀ f ∈ pyWrap width line, f ≠ [] :=
  wrapChunksFuel_ne_nil _ width _ hw (chunkify_ne_nil line)

theorem isChain_append :
    ∀ (l1 : List (Nat × Nat × List Char)) (a b c : Nat) (l2 : List (Nat × Nat × List Char)),
      isChain a b l1 = true → isChain b c l2 = true → isChain a c (l1 ++ l2) = true := by
  intro l1
  induction l1 with
  | nil =>
    intro a b c l2 h1 h2
    have : a = b := by simpa [isChain] using h1
    simpa [this] using h2
  | cons f rest ih =>
    intro a b c l2 h1 h2
    obtain ⟨s, e, cs⟩ := f
    simp only [isChain, Bool.and_eq_true, decide_eq_true_eq] at h1
    simp only [List.cons_append, isChain, Bool.and_eq_true, decide_eq_true_eq]
    exact ⟨⟨h1.1.1, h1.1.2⟩, ih _ _ _ _ h1.2 h2⟩

theorem attachOffsets_chain :
    ∀ (folds : List (List Char)) (start : Nat),
      isChain start (start + folds.flatten.length) (attachOffsets start folds) = true := by
  intro folds
  induction folds with
  | nil => intro start; simp [attachOffsets, isChain]
  | cons f fs ih =>
    intro start
    simp only [attachOffsets, isChain, Bool.and_eq_true, decide_eq_true_eq]
    refine ⟨by simp, ?_⟩
    have h := ih (start + f.length)
    have he : start + f.length + fs.flatten.length = start + (f :: fs).flatten.length := by
      simp
      omega
    rwa [he] at h

theorem attachOffsets_contents :
    ∀ (folds : List (List Char)) (start : Nat),
      ((attachOffsets start folds).map fun f => f.2.2) = folds := by
  intro folds
  induction folds with
  | nil => intro start; rfl
  | cons f fs ih => intro start; simp [attachOffsets, ih]

theorem foldContents_attachOffsets (folds : List (List Char)) (start : Nat) :
    foldContents (attachOffsets start folds) = folds.flatten := by
  rw [foldContents, attachOffsets_contents]

theorem mem_attachOffsets :
    ∀ (folds : List (List Char)) (start : Nat) (f : Nat × Nat × List Char),
      f ∈ attachOffsets start folds → f.2.2 ∈ folds := by
  intro folds
  induction folds with
  | nil => intro start f hf; simp [attachOffsets] at hf
  | cons g gs ih =>
    intro start f hf
    rcases List.mem_cons.mp hf with rfl | hmem
    · exact List.mem_cons_self _ _
    · exact List.mem_cons_of_mem _ (ih _ f hmem)

theorem addSpacesJoin_cons_ne (x : List Char) (l : List (List Char)) (h : l ≠ []) :
    addSpacesJoin (x :: l) = x ++ ' ' :: addSpacesJoin l := by
  cases l with
  | nil => exact absurd rfl h
  | cons y ys => rfl

theorem splitlinesGo_ne_nil :
    ∀ (cs : List Char) (acc : List Char), cs ≠ [] → splitlinesGo acc cs ≠ [] := by
  intro cs
  induction cs with
  | nil => intro acc h; exact absurd rfl h
  | cons c rest ih =>
    intro acc _
    cases rest with
    | nil =>
      rw [splitlinesGo]
      by_cases hb : isLineBreak c <;> simp [hb]
    | cons d r =>
      rw [splitlinesGo]
      by_cases hp : (c = '\r' && d = '\n') = true
      · simp [hp]
      · rw [if_neg hp]
        by_cases hb : isLineBreak c
        · simp [hb]
        · rw [if_neg (by simp [hb])]
          exact ih (c :: acc) (List.cons_ne_nil d r)

theorem endsWithBreak_cons_cons (c d : Char) (r : List Char) :
    endsWithBreak (c :: d :: r) = endsWithBreak (d :: r) := by
  rw [endsWithBreak, endsWithBreak, List.getLast?_cons_cons]

theorem splitlinesGo_spec :
    ∀ (cs : List Char), noCRLF cs = true → endsWithBreak cs = false →
      ∀ acc, addSpacesJoin (splitlinesGo acc cs) = acc.reverse ++ replaceBreaks cs := by
  intro cs
  induction cs with
  | nil =>
    intro _ _ acc
    rw [splitlinesGo]
    by_cases h : acc.isEmpty
    · simp [h, List.isEmpty_iff.mp h, addSpacesJoin, replaceBreaks]
    · simp [h, addSpacesJoin, replaceBreaks]
  | cons c rest ih =>
    intro hnc hend acc
    cases rest with
    | nil =>
      have hb : isLineBreak c = false := by
        simpa [endsWithBreak] using hend
      rw [splitlinesGo, if_neg (by simp [hb])]
      simp [addSpacesJoin, replaceBreaks, hb]
    | cons d r =>
      have hnc' : (!(c = '\r' && d = '\n') && noCRLF (d :: r)) = true := hnc
      rw [Bool.and_eq_true] at hnc'
      have hpair : (c = '\r' && d = '\n') = false := by
        rcases hnc' with ⟨h, _⟩
        rwa [Bool.not_eq_true'] at h
      have hrest : noCRLF (d :: r) = true := hnc'.2
      have hend' : endsWithBreak (d :: r) = false := by
        rwa [endsWithBreak_cons_cons] at hend
      rw [splitlinesGo, if_neg (by simp [hpair])]
      by_cases hb : isLineBreak c
      · rw [if_pos hb]
        rw [addSpacesJoin_cons_ne _ _ (splitlinesGo_ne_nil (d :: r) [] (List.cons_ne_nil d r))]
        rw [ih hrest hend' []]
        simp [replaceBreaks, hb]
      · rw [if_neg hb]
        rw [ih hrest hend' (c :: acc)]
        simp [replaceBreaks, hb]

theorem splitlinesPy_spec (text : List Char) (h1 : noCRLF text = true)
    (h2 : endsWithBreak text = false) :
    addSpacesJoin (splitlinesPy text) = replaceBreaks text := by
  rw [splitlinesPy, splitlinesGo_spec text h1 h2 []]
  rfl

theorem wrapLines_one (width start : Nat) (l : List Char) :
    wrapLines width start [l] = attachOffsets start (pyWrap width l) := rfl

theorem wrapLines_cons2 (width start : Nat) (l r : List Char) (rest' : List (List Char)) :
    wrapLines width start (l :: r :: rest') =
      attachOffsets start (pyWrap width (l ++ [' '])) ++
        wrapLines width (start + ((pyWrap width (l ++ [' '])).map List.length).sum)
          (r :: rest') := rfl

theorem wrapLines_contents :
    ∀ (lines : List (List Char)) (width start : Nat),
      foldContents (wrapLines width start lines) = addSpacesJoin lines := by
  intro lines
  induction lines with
  | nil => intro width start; rfl
  | cons l rest ih =>
    intro width start
    cases rest with
    | nil =>
      rw [wrapLines_one, foldContents_attachOffsets, pyWrap_flatten]
      rfl
    | cons r rest' =>
      rw [wrapLines_cons2, addSpacesJoin_cons_ne _ _ (List.cons_ne_nil r rest')]
      rw [foldContents, List.map_append, List.flatten_append]
      rw [← foldContents, ← foldContents, foldContents_attachOffsets, pyWrap_flatten, ih]
      simp

theorem wrapLines_chain :
    ∀ (lines : List (List Char)) (width start : Nat),
      isChain start (start + (addSpacesJoin lines).length) (wrapLines width start lines) = true := by
  intro lines
  induction lines with
  | nil => intro width start; simp [wrapLines, isChain, addSpacesJoin]
  | cons l rest ih =>
    intro width start
    cases rest with
    | nil =>
      have h := attachOffsets_chain (pyWrap width l) start
      rw [pyWrap_flatten] at h
      exact h
    | cons r rest' =>
      rw [wrapLines_cons2]
      have h1 := attachOffsets_chain (pyWrap width (l ++ [' '])) start
      rw [pyWrap_flatten] at h1
      have hlap : (l ++ [' ']).length = l.length + 1 := by simp
      rw [hlap] at h1
      have htot : ((pyWrap width (l ++ [' '])).map List.length).sum = l.length + 1 := by
        rw [← List.length_join, pyWrap_flatten, hlap]
      rw [htot]
      have h2 := ih width (start + (l.length + 1))
      have h3 := isChain_append _ _ _ _ _ h1 h2
      have he : start + (l.length + 1) + (addSpacesJoin (r :: rest')).length =
          start + (addSpacesJoin (l :: r :: rest')).length := by
        rw [addSpacesJoin_cons_ne _ _ (List.cons_ne_nil r rest')]
        simp only [List.length_append, List.length_cons]
        omega
      rwa [he] at h3

/-- C3, restricted to texts whose line boundaries the claim survives: when
the text contains no `\r\n` pair and does not end in a line boundary, the
wrapper's folds are contiguous, non-overlapping, cover exactly
`[0, len(text))` with `stop - start = len(content)` for every fold, and the
concatenated contents are the text with every line-break character replaced
by a single space. -/
theorem claim_C3 (width : Nat) (text : List Char) (hw : 1 ≤ width)
    (h1 : noCRLF text = true) (h2 : endsWithBreak text = false) :
    isChain 0 text.length (wrapperCall width text) = true ∧
      foldContents (wrapperCall width text) = replaceBreaks text := by
  have hj := splitlinesPy_spec text h1 h2
  have hlen : (replaceBreaks text).length = text.length := List.length_map _ _
  constructor
  · have hc := wrapLines_chain (splitlinesPy text) width 0
    rw [hj, hlen, Nat.zero_add] at hc
    exact hc
  · rw [wrapperCall, wrapLines_contents, hj]

theorem claim_C3_witness :
    (1 ≤ 5 ∧ noCRLF ['a', 'b', ' ', 'c', 'd', '\n', 'e'] = true ∧
        endsWithBreak ['a', 'b', ' ', 'c', 'd', '\n', 'e'] = false) ∧
      isChain 0 (['a', 'b', ' ', 'c', 'd', '\n', 'e'] : List Char).length
          (wrapperCall 5 ['a', 'b', ' ', 'c', 'd', '\n', 'e']) = true ∧
        foldContents (wrapperCall 5 ['a', 'b', ' ', 'c', 'd', '\n', 'e']) =
          replaceBreaks ['a', 'b', ' ', 'c', 'd', '\n', 'e'] :=
  ⟨⟨by decide, by decide, by decide⟩,
    claim_C3 5 ['a', 'b', ' ', 'c', 'd', '\n', 'e'] (by decide) (by decide) (by decide)⟩

/-- C3 as stated is false: on the text `"\n"` (one line-break character) the
wrapper yields no folds at all, so the fold ranges do not cover `[0, 1)` and
the concatenated contents miss the virtual space. -/
theorem claim_C3_counterexample :
    isChain 0 (['\n'] : List Char).length (wrapperCall 5 ['\n']) = false ∧
      foldContents (wrapperCall 5 ['\n']) ≠ replaceBreaks ['\n'] := by
  constructor
  · decide
  · decide

/-! ### Matrix shape lemmas -/

theorem foldl_preserve {α : Type} (P : PaintState → Prop) (f : PaintState → α → PaintState)
    (hf : ∀ st a, P st → P (f st a)) :
    ∀ (l : List α) (st : PaintState), P st → P (l.foldl f st) := by
  intro l
  induction l with
  | nil => exact fun _ h => h
  | cons a rest ih => exact fun st h => ih _ (hf st a h)

theorem matP_setCellL {h w : Nat} {st : PaintState} (hp : matP h w st)
    (r : Nat) (c : Int) (ch : Char) : matP h w (setCellL st r c ch) := by
  obtain ⟨hlen, hrows⟩ := hp
  unfold setCellL
  by_cases hc : 0 ≤ c
  · simp only [hc, if_true]
    constructor
    · simpa using hlen
    · by_cases hr : r < st.mat.length
      · intro row hrow
        rcases List.mem_or_eq_of_mem_set hrow with hmem | heq
        · exact hrows row hmem
        · rw [heq, List.length_set]
          rw [List.getD_eq_getElem _ _ hr]
          exact hrows _ (List.getElem_mem hr)
      · rw [List.set_eq_of_length_le (not_lt.mp hr)]
        exact hrows
  · constructor
    · simpa [hc] using hlen
    · simpa [hc] using hrows

theorem matP_paintRun {h w : Nat} :
    ∀ (n : Nat) (st : PaintState) (lvl : Nat) (col : Int),
      matP h w st → matP h w (paintRun st lvl col n) := by
  intro n
  induction n with
  | zero => exact fun st lvl col hp => hp
  | succ n ih =>
    intro st lvl col hp
    rw [paintRun]
    exact ih _ lvl (col + 1) (matP_setCellL hp lvl col '-')

theorem matP_dashSlices {h w : Nat} (s : Int) (slices : List Multiline)
    {st : PaintState} (hp : matP h w st) : matP h w (dashSlices s slices st) := by
  unfold dashSlices
  refine foldl_preserve (matP h w) _ (fun st sl hp => ?_) slices st hp
  exact foldl_preserve (matP h w) _
    (fun st r hp => matP_paintRun _ st r.level _ hp) sl.lines st hp

theorem matP_writeGo {h w : Nat} :
    ∀ (cs : List Char) (st : PaintState) (lvl : Nat) (col : Int),
      matP h w st → matP h w (applyWrite.writeGo lvl col cs st) := by
  intro cs
  induction cs with
  | nil => exact fun st lvl col hp => hp
  | cons c rest ih =>
    intro st lvl col hp
    rw [applyWrite.writeGo]
    exact ih _ lvl (col + 1) (matP_setCellL hp lvl col c)

theorem matP_labelPhase {h w : Nat} (s : Int) (w' : Nat) (slices : List Multiline)
    {st : PaintState} (hp : matP h w st) : matP h w (labelPhase s w' slices st) := by
  unfold labelPhase
  exact foldl_preserve (matP h w) _
    (fun st (wr : Nat × Int × List Char) hp => matP_writeGo wr.2.2 st wr.1 wr.2.1 hp) _ st hp

theorem matP_replicate (h w : Nat) :
    matP h w ⟨List.replicate h (List.replicate w ' '), []⟩ := by
  constructor
  · simp
  · intro row hrow
    rw [List.eq_of_mem_replicate hrow, List.length_replicate]

theorem replaceTabs_length (cs : List Char) : (replaceTabs cs).length = cs.length :=
  List.length_map _ _

/-- The shape of one rendered block: with no slices nothing beyond the
content line; otherwise the final and the dash matrix both have
`maxLevels + 1` rows, every one as long as the content line. -/
theorem mkBlock_shape (fold : Nat × Nat × List Char) (slices : List Multiline) :
    (mkBlock fold slices).rows.length = (if slices.isEmpty then 0 else maxLevels slices + 1) ∧
      (mkBlock fold slices).dash.length = (if slices.isEmpty then 0 else maxLevels slices + 1) ∧
      rowsLen (mkBlock fold slices).rows (mkBlock fold slices).content.length ∧
      rowsLen (mkBlock fold slices).dash (mkBlock fold slices).content.length := by
  unfold mkBlock
  by_cases h : slices.isEmpty
  · simp [h, rowsLen]
  · simp only [h, if_false, Bool.false_eq_true]
    have h1 := matP_dashSlices (h := maxLevels slices + 1) (w := fold.2.2.length)
      (fold.1 : Int) slices (matP_replicate _ _)
    have h2 := matP_labelPhase (fold.1 : Int) fold.2.2.length slices h1
    exact ⟨h2.1, h1.1, by rw [replaceTabs_length]; exact h2.2,
      by rw [replaceTabs_length]; exact h1.2⟩

theorem mem_renderBlocks (rem : List Multiline) (folds : List (Nat × Nat × List Char))
    (b : Block) (hb : b ∈ renderBlocks rem folds) :
    ∃ fold slices, fold ∈ folds ∧ b = mkBlock fold slices := by
  induction folds generalizing rem with
  | nil => simp [renderBlocks] at hb
  | cons fold rest ih =>
    rw [renderBlocks] at hb
    rcases List.mem_cons.mp hb with heq | hmem
    · exact ⟨fold, _, List.mem_cons_self _ _, heq⟩
    · rcases ih _ hmem with ⟨f, sl, hf, he⟩
      exact ⟨f, sl, List.mem_cons_of_mem _ hf, he⟩

/-- C8: every annotation row emitted for a wrapped line is exactly as long as
the emitted content line of that wrap — the matrix is allocated at the actual
fold length, so the annotation rows stay aligned with the content even when
a fold is shorter than the configured width. -/
theorem claim_C8 (text : PyVal) (spans : List Span) (width : Nat) :
    ∀ b ∈ asciiBlocks (mkAscii text spans width), ∀ row ∈ b.rows,
      row.length = b.content.length := by
  intro b hb row hrow
  rcases mem_renderBlocks _ _ _ hb with ⟨fold, slices, _, rfl⟩
  exact (mkBlock_shape fold slices).2.2.1 row hrow

theorem claim_C8_witness :
    (asciiBlocks (mkAscii (.str ['a', 'b', ' ', 'c', 'd'])
        [⟨0, 2, some ['X']⟩, ⟨1, 4, some ['Y']⟩] 70)).length = 1 ∧
      ∀ b ∈ asciiBlocks (mkAscii (.str ['a', 'b', ' ', 'c', 'd'])
          [⟨0, 2, some ['X']⟩, ⟨1, 4, some ['Y']⟩] 70),
        ∀ row ∈ b.rows, row.length = b.content.length :=
  ⟨by decide,
    claim_C8 (.str ['a', 'b', ' ', 'c', 'd'])
      [⟨0, 2, some ['X']⟩, ⟨1, 4, some ['Y']⟩] 70⟩

/-! ### Lemmas on the layout engine -/

theorem boundaryPoints_sorted (lines : List MLine) :
    List.Sorted (· < ·) (boundaryPoints lines) := by
  have hs : List.Sorted (· ≤ ·) (boundaryPoints lines) :=
    List.sorted_insertionSort _ _
  have hn : (boundaryPoints lines).Nodup :=
    (List.perm_insertionSort _ _).symm.nodup (List.nodup_dedup _)
  exact hs.lt_of_le hn

theorem boundaryPoints_mem (lines : List MLine) (x : Int) :
    x ∈ boundaryPoints lines ↔ x ∈ lines.map MLine.start ++ lines.map MLine.stop := by
  rw [boundaryPoints]
  rw [(List.perm_insertionSort (· ≤ ·) _).mem_iff, List.mem_dedup]

theorem zip_tail_mem {ps : List Int} {a b : Int} (h : (a, b) ∈ ps.zip ps.tail) :
    a ∈ ps ∧ b ∈ ps := by
  have := List.mem_zip h
  refine ⟨this.1, ?_⟩
  cases ps with
  | nil => simp at h
  | cons u rest => exact List.mem_cons_of_mem u this.2

theorem consec_lt :
    ∀ {ps : List Int}, List.Sorted (· < ·) ps →
      ∀ {a b : Int}, (a, b) ∈ ps.zip ps.tail → a < b := by
  intro ps
  induction ps with
  | nil => intro _ a b h; simp at h
  | cons u rest ih =>
    intro hs a b h
    cases rest with
    | nil => simp at h
    | cons v rest' =>
      rcases List.mem_cons.mp h with heq | hmem
      · simp only [Prod.mk.injEq] at heq
        obtain ⟨rfl, rfl⟩ := heq
        exact (List.sorted_cons.mp hs).1 b (List.mem_cons_self _ _)
      · exact ih (List.sorted_cons.mp hs).2 hmem

theorem consec_no_between :
    ∀ {ps : List Int}, List.Sorted (· < ·) ps →
      ∀ {a b : Int}, (a, b) ∈ ps.zip ps.tail →
        ∀ p ∈ ps, p ≤ a ∨ b ≤ p := by
  intro ps
  induction ps with
  | nil => intro _ a b h; simp at h
  | cons u rest ih =>
    intro hs a b h p hp
    cases rest with
    | nil => simp at h
    | cons v rest' =>
      rcases List.mem_cons.mp h with heq | hmem
      · simp only [Prod.mk.injEq] at heq
        obtain ⟨rfl, rfl⟩ := heq
        rcases List.mem_cons.mp hp with rfl | hp'
        · exact Or.inl (le_refl _)
        · rcases List.mem_cons.mp hp' with rfl | hp''
          · exact Or.inr (le_refl _)
          · exact Or.inr (le_of_lt ((List.sorted_cons.mp (List.sorted_cons.mp hs).2).1 p hp''))
      · rcases List.mem_cons.mp hp with rfl | hp'
        · have ha : a ∈ v :: rest' := (zip_tail_mem hmem).1
          exact Or.inl (le_of_lt ((List.sorted_cons.mp hs).1 a ha))
        · exact ih (List.sorted_cons.mp hs).2 hmem p hp'

theorem consec_exists :
    ∀ {ps : List Int}, List.Sorted (· < ·) ps →
      ∀ {p q x : Int}, p ∈ ps → q ∈ ps → p ≤ x → x < q →
        ∃ ab ∈ ps.zip ps.tail, ab.1 ≤ x ∧ x < ab.2 := by
  intro ps
  induction ps with
  | nil => intro _ p q x hp; simp at hp
  | cons u rest ih =>
    intro hs p q x hp hq hpx hxq
    cases rest with
    | nil =>
      rcases List.mem_singleton.mp hp with rfl
      rcases List.mem_singleton.mp hq with rfl
      omega
    | cons v rest' =>
      by_cases hxv : x < v
      · refine ⟨(u, v), List.mem_cons_self _ _, ?_, hxv⟩
        rcases List.mem_cons.mp hp with rfl | hp'
        · exact hpx
        · exact le_trans (le_of_lt ((List.sorted_cons.mp hs).1 p hp')) hpx
      · have hq' : q ∈ v :: rest' := by
          rcases List.mem_cons.mp hq with rfl | h
          · exfalso
            have huv : q < v := (List.sorted_cons.mp hs).1 v (List.mem_cons_self _ _)
            omega
          · exact h
        rcases ih (List.sorted_cons.mp hs).2 (List.mem_cons_self v rest') hq'
          (not_lt.mp hxv) hxq with ⟨ab, hab, h1, h2⟩
        exact ⟨ab, List.mem_cons_of_mem _ hab, h1, h2⟩

theorem consec_pairs_disjoint :
    ∀ {ps : List Int}, List.Sorted (· < ·) ps →
      List.Pairwise (fun ab cd : Int × Int => ab.2 ≤ cd.1) (ps.zip ps.tail) := by
  intro ps
  induction ps with
  | nil => intro _; simp
  | cons u rest ih =>
    intro hs
    cases rest with
    | nil => simp
    | cons v rest' =>
      refine List.pairwise_cons.mpr ⟨?_, ih (List.sorted_cons.mp hs).2⟩
      intro ab hab
      have ha : ab.1 ∈ v :: rest' := (zip_tail_mem (a := ab.1) (b := ab.2) (by simpa using hab)).1
      rcases List.mem_cons.mp ha with h | h
      · exact le_of_eq h.symm
      · exact le_of_lt ((List.sorted_cons.mp (List.sorted_cons.mp hs).2).1 _ h)

theorem mem_mkMultis {lines : List MLine} {ps : List Int} {m : Multiline} :
    m ∈ mkMultis lines ps ↔
      ∃ a b : Int, (a, b) ∈ ps.zip ps.tail ∧
        (lines.filter fun r => r.start < b && a < r.stop) ≠ [] ∧
        m = ⟨a, b, lines.filter fun r => r.start < b && a < r.stop⟩ := by
  rw [mkMultis, List.mem_filterMap]
  constructor
  · rintro ⟨p, hp, hsome⟩
    by_cases he : (lines.filter fun r => r.start < p.2 && p.1 < r.stop).isEmpty
    · simp [he] at hsome
    · simp only [he, Bool.false_eq_true, if_false, Option.some.injEq] at hsome
      exact ⟨p.1, p.2, by simpa using hp, by simpa using he, hsome.symm⟩
  · rintro ⟨a, b, hab, hne, rfl⟩
    refine ⟨(a, b), hab, ?_⟩
    have he : ((lines.filter fun r => r.start < b && a < r.stop).isEmpty) = false := by
      simpa using hne
    simp [he]

theorem mkMultis_sorted {lines : List MLine} {ps : List Int}
    (hs : List.Sorted (· < ·) ps) :
    List.Pairwise (fun m1 m2 : Multiline => m1.stop ≤ m2.start) (mkMultis lines ps) := by
  rw [mkMultis]
  refine List.Pairwise.filterMap _ ?_ (consec_pairs_disjoint hs)
  intro p p' hle m hm m' hm'
  simp only [Option.mem_def] at hm hm'
  by_cases he : (lines.filter fun r => r.start < p.2 && p.1 < r.stop).isEmpty
  · simp [he] at hm
  · by_cases he' : (lines.filter fun r => r.start < p'.2 && p'.1 < r.stop).isEmpty
    · simp [he'] at hm'
    · simp only [he, he', Bool.false_eq_true, if_false, Option.some.injEq] at hm hm'
      rw [← hm, ← hm']
      exact hle

theorem mkMultis_nondeg {lines : List MLine} {ps : List Int}
    (hs : List.Sorted (· < ·) ps) {m : Multiline} (hm : m ∈ mkMultis lines ps) :
    m.start < m.stop := by
  rcases mem_mkMultis.mp hm with ⟨a, b, hab, _, rfl⟩
  exact consec_lt hs hab

theorem mkMultis_lines_ne {lines : List MLine} {ps : List Int} {m : Multiline}
    (hm : m ∈ mkMultis lines ps) : m.lines ≠ [] := by
  rcases mem_mkMultis.mp hm with ⟨a, b, _, hne, rfl⟩
  exact hne

theorem mkMultis_contain {lines : List MLine}
    (hs : List.Sorted (· < ·) (boundaryPoints lines)) {m : Multiline}
    (hm : m ∈ mkMultis lines (boundaryPoints lines)) {r : MLine} (hr : r ∈ m.lines) :
    r ∈ lines ∧ r.start ≤ m.start ∧ m.stop ≤ r.stop := by
  rcases mem_mkMultis.mp hm with ⟨a, b, hab, _, rfl⟩
  simp only at hr
  have hmem := List.mem_filter.mp hr
  have hcond := hmem.2
  rw [Bool.and_eq_true, decide_eq_true_eq, decide_eq_true_eq] at hcond
  have hstart : r.start ∈ boundaryPoints lines :=
    (boundaryPoints_mem _ _).mpr (List.mem_append_left _ (List.mem_map_of_mem _ hmem.1))
  have hstop : r.stop ∈ boundaryPoints lines :=
    (boundaryPoints_mem _ _).mpr (List.mem_append_right _ (List.mem_map_of_mem _ hmem.1))
  refine ⟨hmem.1, ?_, ?_⟩
  · rcases consec_no_between hs hab r.start hstart with h | h
    · exact h
    · omega
  · rcases consec_no_between hs hab r.stop hstop with h | h
    · omega
    · exact h

theorem mkMultis_cover {lines : List MLine} {r : MLine} (hr : r ∈ lines) {x : Int}
    (h1 : r.start ≤ x) (h2 : x < r.stop) :
    ∃ m ∈ mkMultis lines (boundaryPoints lines),
      r ∈ m.lines ∧ m.start ≤ x ∧ x < m.stop := by
  have hs := boundaryPoints_sorted lines
  have hstart : r.start ∈ boundaryPoints lines :=
    (boundaryPoints_mem _ _).mpr (List.mem_append_left _ (List.mem_map_of_mem _ hr))
  have hstop : r.stop ∈ boundaryPoints lines :=
    (boundaryPoints_mem _ _).mpr (List.mem_append_right _ (List.mem_map_of_mem _ hr))
  rcases consec_exists hs hstart hstop h1 h2 with ⟨ab, hab, hax, hxb⟩
  have hrsel : r ∈ lines.filter fun q => q.start < ab.2 && ab.1 < q.stop := by
    rw [List.mem_filter]
    refine ⟨hr, ?_⟩
    rw [Bool.and_eq_true, decide_eq_true_eq, decide_eq_true_eq]
    omega
  refine ⟨⟨ab.1, ab.2, lines.filter fun q => q.start < ab.2 && ab.1 < q.stop⟩, ?_, hrsel, hax, hxb⟩
  exact mem_mkMultis.mpr ⟨ab.1, ab.2, by simpa using hab,
    List.ne_nil_of_mem hrsel, rfl⟩

theorem distGo_src :
    ∀ (spans : List Span) (active : List MLine) (r : MLine),
      r ∈ distributeLevels.distGo active spans →
      ∃ sp ∈ spans, r.start = sp.start ∧ r.stop = sp.stop ∧ r.type = sp.type := by
  intro spans
  induction spans with
  | nil => intro active r h; simp [distributeLevels.distGo] at h
  | cons sp rest ih =>
    intro active r h
    rw [distributeLevels.distGo] at h
    rcases List.mem_cons.mp h with rfl | hmem
    · exact ⟨sp, List.mem_cons_self _ _, rfl, rfl, rfl⟩
    · rcases ih _ r hmem with ⟨sp', hsp', h1, h2, h3⟩
      exact ⟨sp', List.mem_cons_of_mem _ hsp', h1, h2, h3⟩

theorem distributeLevels_src {spans : List Span} {r : MLine}
    (h : r ∈ distributeLevels spans) :
    ∃ sp ∈ spans, r.start = sp.start ∧ r.stop = sp.stop ∧ r.type = sp.type :=
  distGo_src spans [] r h

/-! ### Characterizing the painted matrix -/

theorem getD_set {α : Type} (l : List α) (i j : Nat) (a d : α) :
    (l.set i a).getD j d = if i = j ∧ i < l.length then a else l.getD j d := by
  rw [List.getD_eq_getElem?_getD, List.getD_eq_getElem?_getD, List.getElem?_set]
  by_cases hij : i = j
  · subst hij
    by_cases hl : i < l.length
    · simp [hl]
    · simp [hl, List.getElem?_eq_none (le_of_not_lt hl)]
  · simp [hij]

theorem cellAt_setCellL {h w : Nat} {st : PaintState} (hp : matP h w st)
    (r : Nat) (c : Int) (ch : Char) {i j : Nat} (hi : i < h) (hj : j < w) :
    cellAt (setCellL st r c ch).mat i j =
      if r = i ∧ c = (j : Int) then ch else cellAt st.mat i j := by
  obtain ⟨hlen, hrows⟩ := hp
  unfold setCellL cellAt
  by_cases hc : 0 ≤ c
  · simp only [hc, if_true]
    rw [getD_set]
    by_cases hri : r = i
    · subst hri
      have hr : r < st.mat.length := by omega
      rw [if_pos ⟨rfl, hr⟩, getD_set]
      have hrow : (st.mat.getD r []).length = w := by
        rw [List.getD_eq_getElem _ _ hr]
        exact hrows _ (List.getElem_mem hr)
      by_cases hcj : c = (j : Int)
      · have ht : c.toNat = j := by omega
        rw [if_pos ⟨ht, by omega⟩, if_pos ⟨rfl, hcj⟩]
      · have ht : c.toNat ≠ j := by omega
        rw [if_neg fun hand => ht hand.1, if_neg fun hand => hcj hand.2]
    · rw [if_neg fun hand => hri hand.1, if_neg fun hand => hri hand.1]
  · rw [if_neg hc]
    have hcond : ¬(r = i ∧ c = (j : Int)) := by
      rintro ⟨_, hcj⟩
      omega
    rw [if_neg hcond]

theorem cellAt_paintRun {h w : Nat} :
    ∀ (n : Nat) (st : PaintState) (lvl : Nat) (col : Int), matP h w st →
      ∀ {i j : Nat}, i < h → j < w →
        cellAt (paintRun st lvl col n).mat i j =
          if lvl = i ∧ col ≤ (j : Int) ∧ (j : Int) < col + n then '-'
          else cellAt st.mat i j := by
  intro n
  induction n with
  | zero =>
    intro st lvl col hp i j hi hj
    rw [paintRun]
    have : ¬(lvl = i ∧ col ≤ (j : Int) ∧ (j : Int) < col + (0 : Nat)) := by
      rintro ⟨_, h1, h2⟩
      omega
    rw [if_neg this]
  | succ n ih =>
    intro st lvl col hp i j hi hj
    rw [paintRun]
    rw [ih _ lvl (col + 1) (matP_setCellL hp lvl col '-') hi hj]
    rw [cellAt_setCellL hp lvl col '-' hi hj]
    by_cases hli : lvl = i
    · subst hli
      by_cases hA : col + 1 ≤ (j : Int) ∧ (j : Int) < col + 1 + (n : Nat)
      · rw [if_pos ⟨rfl, hA⟩, if_pos ⟨rfl, by omega, by push_cast; omega⟩]
      · rw [if_neg fun hand => hA hand.2]
        by_cases hB : col = (j : Int)
        · rw [if_pos ⟨rfl, hB⟩, if_pos ⟨rfl, by omega, by push_cast; omega⟩]
        · rw [if_neg fun hand => hB hand.2, if_neg ?_]
          rintro ⟨_, h1, h2⟩
          push_cast at h2
          rcases not_and_or.mp hA with h | h
          · exact hB (by omega)
          · push_cast at h
            exact hB (by omega)
    · rw [if_neg fun hand => hli hand.1, if_neg fun hand => hli hand.1,
        if_neg fun hand => hli hand.1]

theorem cellAt_dashLines {h w : Nat} (s : Int) (sl : Multiline) :
    ∀ (ls : List MLine) (st : PaintState), matP h w st →
      ∀ {i j : Nat}, i < h → j < w →
        cellAt (ls.foldl (fun st r =>
            paintRun st r.level (sl.start - s) (sl.stop - sl.start).toNat) st).mat i j =
          if ∃ r ∈ ls, r.level = i ∧ sl.start ≤ s + (j : Int) ∧ s + (j : Int) < sl.stop
          then '-' else cellAt st.mat i j := by
  intro ls
  induction ls with
  | nil =>
    intro st hp i j hi hj
    rw [List.foldl_nil, if_neg (by simp)]
  | cons r ls' ih =>
    intro st hp i j hi hj
    rw [List.foldl_cons]
    rw [ih _ (matP_paintRun _ _ _ _ hp) hi hj]
    rw [cellAt_paintRun _ _ _ _ hp hi hj]
    by_cases hcov : sl.start ≤ s + (j : Int) ∧ s + (j : Int) < sl.stop
    · have hcov' : sl.start - s ≤ (j : Int) ∧ (j : Int) < sl.start - s + ((sl.stop - sl.start).toNat : Int) := by
        omega
      by_cases hex : ∃ x ∈ ls', x.level = i ∧ sl.start ≤ s + (j : Int) ∧ s + (j : Int) < sl.stop
      · rw [if_pos hex, if_pos ?_]
        rcases hex with ⟨x, hx, hxl, _⟩
        exact ⟨x, List.mem_cons_of_mem _ hx, hxl, hcov⟩
      · rw [if_neg hex]
        by_cases hrl : r.level = i
        · rw [if_pos ⟨hrl, hcov'⟩, if_pos ⟨r, List.mem_cons_self _ _, hrl, hcov⟩]
        · rw [if_neg fun hand => hrl hand.1, if_neg ?_]
          rintro ⟨x, hx, hxl, hxc⟩
          rcases List.mem_cons.mp hx with rfl | hx'
          · exact hrl hxl
          · exact hex ⟨x, hx', hxl, hxc⟩
    · have hncov' : ¬(r.level = i ∧ sl.start - s ≤ (j : Int) ∧
          (j : Int) < sl.start - s + ((sl.stop - sl.start).toNat : Int)) := by
        rintro ⟨_, h1, h2⟩
        exact hcov (by omega)
      rw [if_neg hncov']
      by_cases hex : ∃ x ∈ ls', x.level = i ∧ sl.start ≤ s + (j : Int) ∧ s + (j : Int) < sl.stop
      · rcases hex with ⟨x, _, _, hxc⟩
        exact absurd hxc hcov
      · rw [if_neg hex, if_neg ?_]
        rintro ⟨x, _, _, hxc⟩
        exact hcov hxc

theorem cellAt_dashSlices {h w : Nat} (s : Int) :
    ∀ (slices : List Multiline) (st : PaintState), matP h w st →
      ∀ {i j : Nat}, i < h → j < w →
        cellAt (dashSlices s slices st).mat i j =
          if ∃ sl ∈ slices, ∃ r ∈ sl.lines,
              r.level = i ∧ sl.start ≤ s + (j : Int) ∧ s + (j : Int) < sl.stop
          then '-' else cellAt st.mat i j := by
  intro slices
  induction slices with
  | nil =>
    intro st hp i j hi hj
    rw [dashSlices, List.foldl_nil, if_neg (by simp)]
  | cons sl rest ih =>
    intro st hp i j hi hj
    rw [dashSlices, List.foldl_cons, ← dashSlices]
    have hp' : matP h w (sl.lines.foldl (fun st r =>
        paintRun st r.level (sl.start - s) (sl.stop - sl.start).toNat) st) :=
      foldl_preserve (matP h w) _ (fun st r hp => matP_paintRun _ st r.level _ hp) _ st hp
    rw [ih _ hp' hi hj]
    rw [cellAt_dashLines s sl _ _ hp hi hj]
    by_cases hex : ∃ m ∈ rest, ∃ r ∈ m.lines,
        r.level = i ∧ m.start ≤ s + (j : Int) ∧ s + (j : Int) < m.stop
    · rw [if_pos hex, if_pos ?_]
      rcases hex with ⟨m, hm, hr⟩
      exact ⟨m, List.mem_cons_of_mem _ hm, hr⟩
    · rw [if_neg hex]
      by_cases hsl : ∃ r ∈ sl.lines, r.level = i ∧ sl.start ≤ s + (j : Int) ∧ s + (j : Int) < sl.stop
      · rw [if_pos hsl, if_pos ⟨sl, List.mem_cons_self _ _, hsl⟩]
      · rw [if_neg hsl, if_neg ?_]
        rintro ⟨m, hm, hr⟩
        rcases List.mem_cons.mp hm with rfl | hm'
        · exact hsl hr
        · exact hex ⟨m, hm', hr⟩

theorem cellAt_replicate (h w : Nat) (i j : Nat) :
    cellAt (List.replicate h (List.replicate w ' ')) i j = ' ' := by
  unfold cellAt
  have h1 : (List.replicate h (List.replicate w ' ')).getD i [] =
      if i < h then List.replicate w ' ' else [] := by
    by_cases hi : i < h
    · rw [if_pos hi, List.getD_eq_getElem _ _ (by simpa using hi), List.getElem_replicate]
    · rw [if_neg hi, List.getD_eq_default _ _ (by simpa using hi)]
  rw [h1]
  by_cases hi : i < h
  · rw [if_pos hi]
    by_cases hj : j < w
    · rw [List.getD_eq_getElem _ _ (by simpa using hj), List.getElem_replicate]
    · rw [List.getD_eq_default _ _ (by simpa using hj)]
  · rw [if_neg hi]
    simp

/-! ### Bounding the written indices -/

theorem foldl_max_le_iff :
    ∀ (l : List Nat) (a k : Nat), l.foldl max a ≤ k ↔ a ≤ k ∧ ∀ x ∈ l, x ≤ k := by
  intro l
  induction l with
  | nil => intro a k; simp
  | cons x xs ih =>
    intro a k
    rw [List.foldl_cons, ih]
    constructor
    · rintro ⟨h1, h2⟩
      exact ⟨le_trans (le_max_left a x) h1,
        fun y hy => by
          rcases List.mem_cons.mp hy with rfl | hy'
          · exact le_trans (le_max_right a y) h1
          · exact h2 y hy'⟩
    · rintro ⟨h1, h2⟩
      exact ⟨max_le h1 (h2 x (List.mem_cons_self _ _)),
        fun y hy => h2 y (List.mem_cons_of_mem _ hy)⟩

theorem level_le_maxLevelOf {rows : List MLine} {r : MLine} (hr : r ∈ rows) :
    r.level ≤ maxLevelOf rows := by
  have h := (foldl_max_le_iff (rows.map MLine.level) 0 (maxLevelOf rows)).mp (le_refl _)
  exact h.2 _ (List.mem_map_of_mem _ hr)

theorem maxLevels_eq_maxLevelOf (slices : List Multiline) :
    maxLevels slices = maxLevelOf (slices.flatMap Multiline.lines) := rfl

/-- The written-index bound: every logged `(row, column)` lies in
`[0, h) × [0, w)`. -/
def logB (h w : Nat) (st : PaintState) : Prop :=
  ∀ rc ∈ st.log, rc.1 < h ∧ 0 ≤ rc.2 ∧ rc.2 < (w : Int)

theorem logB_setCellL {h w : Nat} {st : PaintState} (hl : logB h w st)
    {r : Nat} {c : Int} (ch : Char) (hr : r < h) (hc0 : 0 ≤ c) (hcw : c < (w : Int)) :
    logB h w (setCellL st r c ch) := by
  intro rc hrc
  rw [setCellL] at hrc
  rcases List.mem_append.mp hrc with hmem | hmem
  · exact hl rc hmem
  · rcases List.mem_singleton.mp hmem with rfl
    exact ⟨hr, hc0, hcw⟩

theorem logB_paintRun {h w : Nat} :
    ∀ (n : Nat) (st : PaintState) (lvl : Nat) (col : Int), logB h w st →
      lvl < h → 0 ≤ col → col + n ≤ (w : Int) → logB h w (paintRun st lvl col n) := by
  intro n
  induction n with
  | zero => intro st lvl col hl _ _ _; exact hl
  | succ n ih =>
    intro st lvl col hl hlvl hc0 hcw
    rw [paintRun]
    refine ih _ lvl (col + 1) (logB_setCellL hl '-' hlvl hc0 (by push_cast at hcw ⊢; omega)) hlvl
      (by omega) (by push_cast at hcw ⊢; omega)

theorem logB_dashLines {h w : Nat} {s : Int} {sl : Multiline}
    (h1 : s ≤ sl.start) (h2 : sl.start < s + (w : Int)) (h3 : sl.stop ≤ s + (w : Int)) :
    ∀ (ls : List MLine) (st : PaintState), logB h w st → (∀ r ∈ ls, r.level < h) →
      logB h w (ls.foldl (fun st r =>
        paintRun st r.level (sl.start - s) (sl.stop - sl.start).toNat) st) := by
  intro ls
  induction ls with
  | nil => intro st hl _; exact hl
  | cons r ls' ih =>
    intro st hl hlev
    rw [List.foldl_cons]
    refine ih _ ?_ (fun x hx => hlev x (List.mem_cons_of_mem _ hx))
    refine logB_paintRun _ _ _ _ hl (hlev r (List.mem_cons_self _ _)) (by omega) (by omega)

theorem logB_dashSlices {h w : Nat} {s : Int} :
    ∀ (slices : List Multiline) (st : PaintState), logB h w st →
      (∀ sl ∈ slices, s ≤ sl.start ∧ sl.start < s + (w : Int) ∧ sl.stop ≤ s + (w : Int) ∧
        ∀ r ∈ sl.lines, r.level < h) →
      logB h w (dashSlices s slices st) := by
  intro slices
  induction slices with
  | nil => intro st hl _; exact hl
  | cons sl rest ih =>
    intro st hl hfacts
    rw [dashSlices, List.foldl_cons, ← dashSlices]
    obtain ⟨f1, f2, f3, f4⟩ := hfacts sl (List.mem_cons_self _ _)
    exact ih _ (logB_dashLines f1 f2 f3 _ _ hl f4)
      (fun x hx => hfacts x (List.mem_cons_of_mem _ hx))

theorem logB_writeGo {h w : Nat} :
    ∀ (cs : List Char) (st : PaintState) (lvl : Nat) (col : Int), logB h w st →
      lvl < h → 0 ≤ col → col + cs.length ≤ (w : Int) →
      logB h w (applyWrite.writeGo lvl col cs st) := by
  intro cs
  induction cs with
  | nil => intro st lvl col hl _ _ _; exact hl
  | cons c rest ih =>
    intro st lvl col hl hlvl hc0 hcw
    rw [applyWrite.writeGo]
    simp only [List.length_cons] at hcw
    refine ih _ lvl (col + 1)
      (logB_setCellL hl c hlvl hc0 (by push_cast at hcw ⊢; omega)) hlvl
      (by omega) (by push_cast at hcw ⊢; omega)

theorem foldl_preserve_mem {α : Type} (P : PaintState → Prop) (f : PaintState → α → PaintState) :
    ∀ (l : List α), (∀ st a, a ∈ l → P st → P (f st a)) →
      ∀ st : PaintState, P st → P (l.foldl f st) := by
  intro l
  induction l with
  | nil => intro _ st h; exact h
  | cons a rest ih =>
    intro hf st h
    exact ih (fun st x hx => hf st x (List.mem_cons_of_mem _ hx)) _
      (hf st a (List.mem_cons_self _ _) h)

theorem logB_labelPhase {h w : Nat} {s : Int} {w' : Nat} {slices : List Multiline}
    {st : PaintState} (hl : logB h w st)
    (hws : ∀ wr ∈ labelWrites s w' slices,
      wr.1 < h ∧ 0 ≤ wr.2.1 ∧ wr.2.1 + wr.2.2.length ≤ (w : Int)) :
    logB h w (labelPhase s w' slices st) := by
  rw [labelPhase]
  refine foldl_preserve_mem (logB h w) _ _ (fun st wr hwr hst => ?_) st hl
  obtain ⟨b1, b2, b3⟩ := hws wr hwr
  exact logB_writeGo wr.2.2 st wr.1 wr.2.1 hst b1 b2 b3

/-! ### The label writes and the slice loop -/

theorem mem_labelWrites {s : Int} {w : Nat} {slices : List Multiline}
    {wr : Nat × Int × List Char} :
    wr ∈ labelWrites s w slices ↔
      ∃ sl ∈ slices, ∃ r ∈ sl.lines,
        typeNonempty r.type = true ∧ r.start = sl.start ∧
        wr = (r.level, sl.start - s, labelTrunc r sl.start s w) := by
  rw [labelWrites, List.mem_flatMap]
  constructor
  · rintro ⟨sl, hsl, hwr⟩
    rcases List.mem_filterMap.mp hwr with ⟨r, hr, hsome⟩
    by_cases hcond : (typeNonempty r.type && r.start == sl.start) = true
    · rw [if_pos hcond, Option.some.injEq] at hsome
      rw [Bool.and_eq_true, beq_iff_eq] at hcond
      exact ⟨sl, hsl, r, hr, hcond.1, hcond.2, hsome.symm⟩
    · rw [if_neg hcond] at hsome
      exact absurd hsome (Option.noConfusion)
  · rintro ⟨sl, hsl, r, hr, h1, h2, rfl⟩
    refine ⟨sl, hsl, List.mem_filterMap.mpr ⟨r, hr, ?_⟩⟩
    rw [if_pos (by rw [Bool.and_eq_true, beq_iff_eq]; exact ⟨h1, h2⟩)]

theorem labelTrunc_length_le {r : MLine} {sliceStart s : Int} {w : Nat}
    (hsize : 0 < r.stop - r.start) (hspace : 0 < (w : Int) - (sliceStart - s)) :
    (sliceStart - s) + ((labelTrunc r sliceStart s w).length : Int) ≤ (w : Int) := by
  rw [labelTrunc, pyTakeI, List.length_take]
  have hmin : (0 : Int) ≤ min (r.stop - r.start) ((w : Int) - (sliceStart - s)) := by
    omega
  rw [pyIndex, if_neg (not_lt.mpr hmin)]
  have h1 : (min (r.stop - r.start) ((w : Int) - (sliceStart - s))).toNat ≤
      ((w : Int) - (sliceStart - s)).toNat := by
    apply Int.toNat_le_toNat
    omega
  omega

theorem sliceLine_slices_mem :
    ∀ (rem : List Multiline) (s e : Int) (sl : Multiline),
      sl ∈ (sliceLine s e rem).1 → ∃ m ∈ rem, m.start < e ∧ sl = clipM m s e := by
  intro rem
  induction rem with
  | nil => intro s e sl h; simp [sliceLine] at h
  | cons m rest ih =>
    intro s e sl h
    rw [sliceLine] at h
    by_cases h0 : m.start ≥ e
    · rw [if_pos h0] at h
      simp at h
    · rw [if_neg h0] at h
      by_cases h1 : m.stop ≤ e
      · rw [if_pos h1] at h
        rcases List.mem_cons.mp h with rfl | hmem
        · exact ⟨m, List.mem_cons_self _ _, not_le.mp h0, rfl⟩
        · rcases ih s e sl hmem with ⟨m', hm', he', heq⟩
          exact ⟨m', List.mem_cons_of_mem _ hm', he', heq⟩
      · rw [if_neg h1] at h
        rcases List.mem_singleton.mp h with rfl
        exact ⟨m, List.mem_cons_self _ _, not_le.mp h0, rfl⟩

theorem sliceLine_slices_complete :
    ∀ (rem : List Multiline) (s e : Int),
      (∀ m ∈ rem, m.start < m.stop) →
      List.Pairwise (fun a b : Multiline => a.stop ≤ b.start) rem →
      ∀ m ∈ rem, m.start < e → clipM m s e ∈ (sliceLine s e rem).1 := by
  intro rem
  induction rem with
  | nil => intro s e _ _ m hm; simp at hm
  | cons m0 rest ih =>
    intro s e hnd hpw m hm hme
    rw [sliceLine]
    by_cases h0 : m0.start ≥ e
    · exfalso
      rcases List.mem_cons.mp hm with rfl | hm'
      · omega
      · have hd := (List.pairwise_cons.mp hpw).1 m hm'
        have hn := hnd m0 (List.mem_cons_self _ _)
        omega
    · rw [if_neg h0]
      by_cases h1 : m0.stop ≤ e
      · rw [if_pos h1]
        rcases List.mem_cons.mp hm with rfl | hm'
        · exact List.mem_cons_self _ _
        · exact List.mem_cons_of_mem _
            (ih s e (fun x hx => hnd x (List.mem_cons_of_mem _ hx))
              (List.pairwise_cons.mp hpw).2 m hm' hme)
      · rw [if_neg h1]
        rcases List.mem_cons.mp hm with rfl | hm'
        · exact List.mem_singleton.mpr rfl
        · exfalso
          have hd := (List.pairwise_cons.mp hpw).1 m hm'
          omega

theorem sliceLine_rem :
    ∀ (rem : List Multiline) (s e : Int),
      ∃ dropped, rem = dropped ++ (sliceLine s e rem).2 ∧
        ∀ m ∈ dropped, m.stop ≤ e := by
  intro rem
  induction rem with
  | nil => intro s e; exact ⟨[], rfl, by simp⟩
  | cons m rest ih =>
    intro s e
    rw [sliceLine]
    by_cases h0 : m.start ≥ e
    · rw [if_pos h0]
      exact ⟨[], rfl, by simp⟩
    · rw [if_neg h0]
      by_cases h1 : m.stop ≤ e
      · rw [if_pos h1]
        rcases ih s e with ⟨d', hd', hstops⟩
        refine ⟨m :: d', by simpa using hd', ?_⟩
        intro x hx
        rcases List.mem_cons.mp hx with rfl | hx'
        · exact h1
        · exact hstops x hx'
      · rw [if_neg h1]
        exact ⟨[], rfl, by simp⟩

theorem sliceLine_rem_stop :
    ∀ (rem : List Multiline) (s e : Int),
      (∀ m ∈ rem, m.start < m.stop) →
      List.Pairwise (fun a b : Multiline => a.stop ≤ b.start) rem →
      ∀ m ∈ (sliceLine s e rem).2, e < m.stop := by
  intro rem
  induction rem with
  | nil => intro s e _ _ m hm; simp [sliceLine] at hm
  | cons m0 rest ih =>
    intro s e hnd hpw m hm
    rw [sliceLine] at hm
    by_cases h0 : m0.start ≥ e
    · rw [if_pos h0] at hm
      rcases List.mem_cons.mp hm with rfl | hm'
      · have := hnd m (List.mem_cons_self _ _)
        omega
      · have hd := (List.pairwise_cons.mp hpw).1 m hm'
        have hn0 := hnd m0 (List.mem_cons_self _ _)
        have hn := hnd m (List.mem_cons_of_mem _ hm')
        omega
    · rw [if_neg h0] at hm
      by_cases h1 : m0.stop ≤ e
      · rw [if_pos h1] at hm
        exact ih s e (fun x hx => hnd x (List.mem_cons_of_mem _ hx))
          (List.pairwise_cons.mp hpw).2 m hm
      · rw [if_neg h1] at hm
        rcases List.mem_cons.mp hm with rfl | hm'
        · omega
        · have hd := (List.pairwise_cons.mp hpw).1 m hm'
          have hn := hnd m (List.mem_cons_of_mem _ hm')
          omega

/-! ### The per-fold package -/

theorem mkBlock_fields (f : Nat × Nat × List Char) (slices : List Multiline) :
    (mkBlock f slices).start = f.1 ∧ (mkBlock f slices).stop = f.2.1 ∧
      (mkBlock f slices).content = replaceTabs f.2.2 ∧
      (mkBlock f slices).slices = slices := by
  unfold mkBlock
  by_cases h : slices.isEmpty <;> simp [h]

/-- Walking the folds with the pending suffix `rem`: every produced block is
`mkBlock` of its fold over its collected slices, the fold is non-empty with
`stop = start + length`, every slice is the clip of a group starting before
the fold's end, and every group meeting the fold is clipped into the
slices. -/
theorem renderBlocks_package :
    ∀ (folds : List (Nat × Nat × List Char)) (rem multis : List Multiline)
      (pos endP : Nat),
      (∀ m ∈ multis, m.start < m.stop) →
      List.Pairwise (fun a b : Multiline => a.stop ≤ b.start) multis →
      (∃ dropped, multis = dropped ++ rem ∧ ∀ m ∈ dropped, m.stop ≤ (pos : Int)) →
      isChain pos endP folds = true →
      (∀ f ∈ folds, f.2.2 ≠ []) →
      ∀ b ∈ renderBlocks rem folds,
        ∃ c : List Char,
          b = mkBlock (b.start, b.stop, c) b.slices ∧ c ≠ [] ∧
            b.stop = b.start + c.length ∧ b.content = replaceTabs c ∧
            (∀ sl ∈ b.slices, ∃ m ∈ multis,
              (m.start : Int) < (b.stop : Int) ∧ sl = clipM m b.start b.stop) ∧
            (∀ m ∈ multis, (m.start : Int) < (b.stop : Int) →
              (b.start : Int) < m.stop → clipM m b.start b.stop ∈ b.slices) := by
  intro folds
  induction folds with
  | nil => intro rem multis pos endP _ _ _ _ _ b hb; simp [renderBlocks] at hb
  | cons fold rest ih =>
    intro rem multis pos endP hnd hpw hsuf hchain hne b hb
    obtain ⟨fs, fe, fc⟩ := fold
    simp only [isChain, Bool.and_eq_true, decide_eq_true_eq] at hchain
    obtain ⟨⟨rfl, rfl⟩, hchain'⟩ := hchain
    obtain ⟨dropped, rfl, hdrop⟩ := hsuf
    have hremnd : ∀ m ∈ rem, m.start < m.stop :=
      fun m hm => hnd m (List.mem_append_right _ hm)
    have hrempw : List.Pairwise (fun a b : Multiline => a.stop ≤ b.start) rem :=
      (List.pairwise_append.mp hpw).2.1
    rw [renderBlocks] at hb
    rcases List.mem_cons.mp hb with rfl | hmem
    · set slices := (sliceLine (fs : Int) ((fs + fc.length : Nat) : Int) rem).1 with hslices
      obtain ⟨hbs, hbe, hbc, hbsl⟩ := mkBlock_fields (fs, fs + fc.length, fc) slices
      refine ⟨fc, ?_, hne _ (List.mem_cons_self _ _), ?_, ?_, ?_, ?_⟩
      · rw [hbs, hbe, hbsl]
      · rw [hbs, hbe]
      · rw [hbc]
      · intro sl hsl
        rw [hbsl] at hsl
        rcases sliceLine_slices_mem rem _ _ sl hsl with ⟨m, hm, hme, heq⟩
        exact ⟨m, List.mem_append_right _ hm, by rw [hbe]; exact_mod_cast hme,
          by rw [hbs, hbe]; exact heq⟩
      · intro m hm hm1 hm2
        have hmr : m ∈ rem := by
          rcases List.mem_append.mp hm with hmd | hmr
          · exfalso
            have := hdrop m hmd
            rw [hbs] at hm2
            omega
          · exact hmr
        rw [hbsl, hbs, hbe]
        refine sliceLine_slices_complete rem _ _ hremnd hrempw m hmr ?_
        rw [hbe] at hm1
        exact_mod_cast hm1
    · obtain ⟨d', hd', hd'stops⟩ := sliceLine_rem rem (fs : Int) ((fs + fc.length : Nat) : Int)
      refine ih ((sliceLine (fs : Int) ((fs + fc.length : Nat) : Int) rem).2)
        (dropped ++ rem) (fs + fc.length) endP hnd hpw ?_ hchain'
        (fun f hf => hne f (List.mem_cons_of_mem _ hf)) b hmem
      refine ⟨dropped ++ d', by rw [List.append_assoc, ← hd'], ?_⟩
      intro m hm
      rcases List.mem_append.mp hm with hmd | hmd'
      · have := hdrop m hmd
        have hle : (fs : Int) ≤ ((fs + fc.length : Nat) : Int) := by push_cast; omega
        omega
      · exact hd'stops m hmd'

/-- The package of `renderBlocks_package` strengthened for documents whose
groups all end after the running position (true when every span offset is
non-negative): every slice's group also ends after the fold's start, so no
slice is degenerate. -/
theorem renderBlocks_package_pos :
    ∀ (folds : List (Nat × Nat × List Char)) (rem multis : List Multiline)
      (pos endP : Nat),
      (∀ m ∈ multis, m.start < m.stop) →
      List.Pairwise (fun a b : Multiline => a.stop ≤ b.start) multis →
      (∃ dropped, multis = dropped ++ rem ∧ ∀ m ∈ dropped, m.stop ≤ (pos : Int)) →
      (∀ m ∈ rem, (pos : Int) < m.stop) →
      isChain pos endP folds = true →
      (∀ f ∈ folds, f.2.2 ≠ []) →
      ∀ b ∈ renderBlocks rem folds,
        ∃ c : List Char,
          b = mkBlock (b.start, b.stop, c) b.slices ∧ c ≠ [] ∧
            b.stop = b.start + c.length ∧ b.content = replaceTabs c ∧
            (∀ sl ∈ b.slices, ∃ m ∈ multis,
              (m.start : Int) < (b.stop : Int) ∧ (b.start : Int) < m.stop ∧
                sl = clipM m b.start b.stop) ∧
            (∀ m ∈ multis, (m.start : Int) < (b.stop : Int) →
              (b.start : Int) < m.stop → clipM m b.start b.stop ∈ b.slices) := by
  intro folds
  induction folds with
  | nil => intro rem multis pos endP _ _ _ _ _ _ b hb; simp [renderBlocks] at hb
  | cons fold rest ih =>
    intro rem multis pos endP hnd hpw hsuf hstop hchain hne b hb
    obtain ⟨fs, fe, fc⟩ := fold
    simp only [isChain, Bool.and_eq_true, decide_eq_true_eq] at hchain
    obtain ⟨⟨rfl, rfl⟩, hchain'⟩ := hchain
    obtain ⟨dropped, rfl, hdrop⟩ := hsuf
    have hremnd : ∀ m ∈ rem, m.start < m.stop :=
      fun m hm => hnd m (List.mem_append_right _ hm)
    have hrempw : List.Pairwise (fun a b : Multiline => a.stop ≤ b.start) rem :=
      (List.pairwise_append.mp hpw).2.1
    rw [renderBlocks] at hb
    rcases List.mem_cons.mp hb with rfl | hmem
    · set slices := (sliceLine (fs : Int) ((fs + fc.length : Nat) : Int) rem).1 with hslices
      obtain ⟨hbs, hbe, hbc, hbsl⟩ := mkBlock_fields (fs, fs + fc.length, fc) slices
      refine ⟨fc, ?_, hne _ (List.mem_cons_self _ _), ?_, ?_, ?_, ?_⟩
      · rw [hbs, hbe, hbsl]
      · rw [hbs, hbe]
      · rw [hbc]
      · intro sl hsl
        rw [hbsl] at hsl
        rcases sliceLine_slices_mem rem _ _ sl hsl with ⟨m, hm, hme, heq⟩
        refine ⟨m, List.mem_append_right _ hm, by rw [hbe]; exact_mod_cast hme, ?_, ?_⟩
        · rw [hbs]
          exact hstop m hm
        · rw [hbs, hbe]
          exact heq
      · intro m hm hm1 hm2
        have hmr : m ∈ rem := by
          rcases List.mem_append.mp hm with hmd | hmr
          · exfalso
            have := hdrop m hmd
            rw [hbs] at hm2
            omega
          · exact hmr
        rw [hbsl, hbs, hbe]
        refine sliceLine_slices_complete rem _ _ hremnd hrempw m hmr ?_
        rw [hbe] at hm1
        exact_mod_cast hm1
    · obtain ⟨d', hd', hd'stops⟩ := sliceLine_rem rem (fs : Int) ((fs + fc.length : Nat) : Int)
      refine ih ((sliceLine (fs : Int) ((fs + fc.length : Nat) : Int) rem).2)
        (dropped ++ rem) (fs + fc.length) endP hnd hpw ?_ ?_ hchain'
        (fun f hf => hne f (List.mem_cons_of_mem _ hf)) b hmem
      · refine ⟨dropped ++ d', by rw [List.append_assoc, ← hd'], ?_⟩
        intro m hm
        rcases List.mem_append.mp hm with hmd | hmd'
        · have := hdrop m hmd
          have hle : (fs : Int) ≤ ((fs + fc.length : Nat) : Int) := by push_cast; omega
          omega
        · exact hd'stops m hmd'
      · exact sliceLine_rem_stop rem _ _ hremnd hrempw

theorem mem_wrapLines_content :
    ∀ (lines : List (List Char)) (width start : Nat) (f : Nat × Nat × List Char),
      f ∈ wrapLines width start lines → ∃ line, f.2.2 ∈ pyWrap width line := by
  intro lines
  induction lines with
  | nil => intro width start f hf; simp [wrapLines] at hf
  | cons l rest ih =>
    intro width start f hf
    cases rest with
    | nil =>
      rw [wrapLines_one] at hf
      exact ⟨l, mem_attachOffsets _ _ _ hf⟩
    | cons r rest' =>
      rw [wrapLines_cons2] at hf
      rcases List.mem_append.mp hf with hmem | hmem
      · exact ⟨l ++ [' '], mem_attachOffsets _ _ _ hmem⟩
      · exact ih width _ f hmem

theorem wrapperCall_content_ne {width : Nat} (hw : 1 ≤ width) (text : List Char) :
    ∀ f ∈ wrapperCall width text, f.2.2 ≠ [] := by
  intro f hf
  rcases mem_wrapLines_content _ _ _ f hf with ⟨line, hline⟩
  exact pyWrap_ne_nil width line hw _ hline

/-- The in-bounds facts for one rendered block: every logged write lies
within the allocated matrix. -/
theorem block_logB (s e : Nat) (c : List Char) (slices multis : List Multiline)
    (hc : c ≠ []) (he : e = s + c.length)
    (hsl : ∀ sl ∈ slices, ∃ m ∈ multis, (m.start : Int) < (e : Int) ∧ sl = clipM m s e)
    (hrows : ∀ m ∈ multis, ∀ r ∈ m.lines, r.start < r.stop) :
    ∀ rc ∈ (mkBlock (s, e, c) slices).log,
      rc.1 < (mkBlock (s, e, c) slices).rows.length ∧ 0 ≤ rc.2 ∧
        rc.2 < ((mkBlock (s, e, c) slices).content.length : Int) := by
  have hlen : 1 ≤ c.length := by
    rcases c with _ | ⟨x, xs⟩
    · exact absurd rfl hc
    · simp
  by_cases hempty : slices.isEmpty
  · intro rc hrc
    unfold mkBlock at hrc
    rw [if_pos hempty] at hrc
    simp at hrc
  · have hslfacts : ∀ sl ∈ slices,
        (s : Int) ≤ sl.start ∧ sl.start < (s : Int) + c.length ∧
          sl.stop ≤ (s : Int) + c.length ∧
          ∀ r ∈ sl.lines, r.level < maxLevels slices + 1 := by
      intro sl hsl'
      rcases hsl sl hsl' with ⟨m, hm, hme, heq⟩
      have hse : ((e : Nat) : Int) = (s : Int) + c.length := by
        rw [he]; push_cast; ring
      refine ⟨?_, ?_, ?_, ?_⟩
      · rw [heq]; exact le_max_right _ _
      · rw [heq]
        simp only [clipM]
        rw [← hse]
        refine max_lt hme ?_
        rw [hse]
        push_cast
        omega
      · rw [heq]
        simp only [clipM]
        rw [← hse]
        exact min_le_right _ _
      · intro r hr
        have hrmem : r ∈ slices.flatMap Multiline.lines :=
          List.mem_flatMap.mpr ⟨sl, hsl', hr⟩
        have := level_le_maxLevelOf hrmem
        rw [maxLevels_eq_maxLevelOf]
        omega
    have hlog : logB (maxLevels slices + 1) c.length
        (labelPhase (s : Int) c.length slices
          (dashSlices (s : Int) slices
            ⟨List.replicate (maxLevels slices + 1) (List.replicate c.length ' '), []⟩)) := by
      refine logB_labelPhase ?_ ?_
      · refine logB_dashSlices _ _ (fun rc hrc => by simp at hrc) hslfacts
      · intro wr hwr
        rcases mem_labelWrites.mp hwr with ⟨sl, hsl', r, hr, _, hstart, rfl⟩
        obtain ⟨f1, f2, f3, f4⟩ := hslfacts sl hsl'
        rcases hsl sl hsl' with ⟨m, hm, _, heq⟩
        have hrv : r.start < r.stop := hrows m hm r (by rw [heq] at hr; exact hr)
        refine ⟨f4 r hr, ?_, ?_⟩
        · show (0 : Int) ≤ sl.start - (s : Int)
          omega
        · show sl.start - (s : Int) +
            ((labelTrunc r sl.start (s : Int) c.length).length : Int) ≤ (c.length : Int)
          exact labelTrunc_length_le (by omega) (by omega)
    intro rc hrc
    unfold mkBlock at hrc ⊢
    rw [if_neg hempty] at hrc ⊢
    simp only at hrc ⊢
    obtain ⟨b1, b2, b3⟩ := hlog rc hrc
    refine ⟨?_, b2, ?_⟩
    · have hm2 := matP_labelPhase (h := maxLevels slices + 1) (w := c.length)
        (s : Int) c.length slices
        (matP_dashSlices (s : Int) slices (matP_replicate _ _))
      rw [hm2.1]
      exact b1
    · rw [replaceTabs_length]
      exact b3

/-! ### Document-level facts and the renderer claims -/

theorem docMultis_nondeg (spans : List Span) :
    ∀ m ∈ getMultilines spans, m.start < m.stop :=
  fun _ hm => mkMultis_nondeg (boundaryPoints_sorted _) hm

theorem docMultis_pairwise (spans : List Span) :
    List.Pairwise (fun a b : Multiline => a.stop ≤ b.start) (getMultilines spans) :=
  mkMultis_sorted (boundaryPoints_sorted _)

theorem docMultis_rowvalid {spans : List Span}
    (hval : ∀ sp ∈ spans, sp.start < sp.stop) :
    ∀ m ∈ getMultilines spans, ∀ r ∈ m.lines, r.start < r.stop := by
  intro m hm r hr
  have hc := mkMultis_contain (boundaryPoints_sorted _) hm hr
  rcases distributeLevels_src hc.1 with ⟨sp, hsp, h1, h2, _⟩
  rw [h1, h2]
  exact hval sp hsp

theorem sorted_valid {spans : List Span} (hval : ∀ sp ∈ spans, sp.start < sp.stop) :
    ∀ sp ∈ spans.insertionSort spanLe, sp.start < sp.stop :=
  fun sp hsp => hval sp ((List.perm_insertionSort _ _).mem_iff.mp hsp)

theorem wrapperCall_chain (width : Nat) (text : List Char) :
    isChain 0 (addSpacesJoin (splitlinesPy text)).length (wrapperCall width text) = true := by
  have h := wrapLines_chain (splitlinesPy text) width 0
  rwa [Nat.zero_add] at h

/-- C6: on every validly constructed ASCII document (valid spans, positive
width) the renderer's painting never indexes outside the allocated matrix —
every logged `(row, column)` write of every block lies inside the
`height × len(content line)` matrix, so fully draining `as_ascii` is total. -/
theorem claim_C6 (text : PyVal) (spans : List Span) (width : Nat)
    (hw : 1 ≤ width) (hval : ∀ sp ∈ spans, sp.start < sp.stop) :
    ∀ b ∈ asciiBlocks (mkAscii text spans width), ∀ rc ∈ b.log,
      rc.1 < b.rows.length ∧ 0 ≤ rc.2 ∧ rc.2 < (b.content.length : Int) := by
  intro b hb rc hrc
  have hb' : b ∈ renderBlocks (getMultilines (spans.insertionSort spanLe))
      (wrapperCall width (pyStr text)) := hb
  obtain ⟨c, heq, hcne, hbe, hbc, hP3, hP4⟩ :=
    renderBlocks_package (wrapperCall width (pyStr text))
      (getMultilines (spans.insertionSort spanLe))
      (getMultilines (spans.insertionSort spanLe)) 0 _
      (docMultis_nondeg _) (docMultis_pairwise _)
      ⟨[], rfl, by simp⟩ (wrapperCall_chain width (pyStr text))
      (wrapperCall_content_ne hw (pyStr text)) b hb'
  rw [heq] at hrc ⊢
  exact block_logB b.start b.stop c b.slices
    (getMultilines (spans.insertionSort spanLe)) hcne hbe hP3
    (docMultis_rowvalid (sorted_valid hval)) rc hrc

theorem claim_C6_witness :
    (1 ≤ 70 ∧ ∀ sp ∈ [Span.mk 0 2 (some ['X']), Span.mk 1 4 (some ['Y'])],
        sp.start < sp.stop) ∧
      ∀ b ∈ asciiBlocks (mkAscii (.str ['a', 'b', ' ', 'c', 'd'])
          [Span.mk 0 2 (some ['X']), Span.mk 1 4 (some ['Y'])] 70),
        ∀ rc ∈ b.log, rc.1 < b.rows.length ∧ 0 ≤ rc.2 ∧ rc.2 < (b.content.length : Int) :=
  ⟨⟨by decide, by decide⟩,
    claim_C6 (.str ['a', 'b', ' ', 'c', 'd'])
      [Span.mk 0 2 (some ['X']), Span.mk 1 4 (some ['Y'])] 70 (by decide) (by decide)⟩

theorem mem_survivors {multis : List Multiline} {s e : Int} {r : MLine} :
    r ∈ survivors multis s e ↔
      ∃ m ∈ multis, m.start < e ∧ s < m.stop ∧ r ∈ m.lines ∧
        max r.start s < min r.stop e := by
  unfold survivors
  rw [List.mem_filter, List.mem_flatMap]
  constructor
  · rintro ⟨⟨m, hm, hr⟩, hcond⟩
    have hmf := List.mem_filter.mp hm
    have hmc := hmf.2
    rw [Bool.and_eq_true, decide_eq_true_eq, decide_eq_true_eq] at hmc
    rw [decide_eq_true_eq] at hcond
    exact ⟨m, hmf.1, hmc.1, hmc.2, hr, hcond⟩
  · rintro ⟨m, hm, h1, h2, hr, hc⟩
    refine ⟨⟨m, ?_, hr⟩, by rwa [decide_eq_true_eq]⟩
    rw [List.mem_filter]
    refine ⟨hm, ?_⟩
    rw [Bool.and_eq_true, decide_eq_true_eq, decide_eq_true_eq]
    exact ⟨h1, h2⟩

theorem mkBlock_dash_rows (f : Nat × Nat × List Char) (slices : List Multiline)
    (h : ¬ slices.isEmpty = true) :
    (mkBlock f slices).dash = (dashSlices (f.1 : Int) slices
        ⟨List.replicate (maxLevels slices + 1) (List.replicate f.2.2.length ' '), []⟩).mat ∧
      (mkBlock f slices).rows = (labelPhase (f.1 : Int) f.2.2.length slices
        (dashSlices (f.1 : Int) slices
          ⟨List.replicate (maxLevels slices + 1) (List.replicate f.2.2.length ' '), []⟩)).mat := by
  unfold mkBlock
  rw [if_neg h]
  exact ⟨rfl, rfl⟩

theorem docMultis_contain (spans : List Span) :
    ∀ m ∈ getMultilines spans, ∀ r ∈ m.lines, r.start ≤ m.start ∧ m.stop ≤ r.stop :=
  fun _ hm _ hr => ⟨(mkMultis_contain (boundaryPoints_sorted _) hm hr).2.1,
    (mkMultis_contain (boundaryPoints_sorted _) hm hr).2.2⟩

theorem docMultis_cover (spans : List Span) :
    ∀ m ∈ getMultilines spans, ∀ r ∈ m.lines, ∀ x : Int, r.start ≤ x → x < r.stop →
      ∃ m' ∈ getMultilines spans, r ∈ m'.lines ∧ m'.start ≤ x ∧ x < m'.stop := by
  intro m hm r hr x h1 h2
  exact mkMultis_cover (mkMultis_contain (boundaryPoints_sorted _) hm hr).1 h1 h2

theorem docMultis_lines_ne (spans : List Span) :
    ∀ m ∈ getMultilines spans, m.lines ≠ [] :=
  fun _ hm => mkMultis_lines_ne hm

/-- When every span has a non-negative start and a stop beyond it, every
group's stop is positive, so the fold walk may start at position `0` with no
group already past. -/
theorem docMultis_nonneg {spans : List Span}
    (hval : ∀ sp ∈ spans, sp.start < sp.stop)
    (hnn : ∀ sp ∈ spans, 0 ≤ sp.start) :
    ∀ m ∈ getMultilines spans, (0 : Int) < m.stop := by
  intro m hm
  have hpt : ∀ x ∈ boundaryPoints (distributeLevels spans), 0 ≤ x := by
    intro x hx
    rcases List.mem_append.mp ((boundaryPoints_mem _ _).mp hx) with hx' | hx'
    · rcases List.mem_map.mp hx' with ⟨r, hr, rfl⟩
      rcases distributeLevels_src hr with ⟨sp, hsp, h1, _, _⟩
      rw [h1]
      exact hnn sp hsp
    · rcases List.mem_map.mp hx' with ⟨r, hr, rfl⟩
      rcases distributeLevels_src hr with ⟨sp, hsp, _, h2, _⟩
      rw [h2]
      have ha := hnn sp hsp
      have hb := hval sp hsp
      omega
  rcases mem_mkMultis.mp hm with ⟨a, b, hab, _, rfl⟩
  have hlt := consec_lt (boundaryPoints_sorted _) hab
  have ha := hpt a (zip_tail_mem hab).1
  show (0 : Int) < b
  omega

/-- One fold of the C1 properties: the slices given, the emitted annotation
matrix is governed by the claim's surviving rows. -/
theorem block_C1 (s e : Nat) (c : List Char) (slices multis : List Multiline)
    (hc : c ≠ []) (he : e = s + c.length)
    (hP5 : ∀ sl ∈ slices, ∃ m ∈ multis,
      (m.start : Int) < (e : Int) ∧ (s : Int) < m.stop ∧ sl = clipM m s e)
    (hP4 : ∀ m ∈ multis, (m.start : Int) < (e : Int) → (s : Int) < m.stop →
      clipM m s e ∈ slices)
    (hnd : ∀ m ∈ multis, m.start < m.stop)
    (hcont : ∀ m ∈ multis, ∀ r ∈ m.lines, r.start ≤ m.start ∧ m.stop ≤ r.stop)
    (hrowv : ∀ m ∈ multis, ∀ r ∈ m.lines, r.start < r.stop)
    (hcov : ∀ m ∈ multis, ∀ r ∈ m.lines, ∀ x : Int, r.start ≤ x → x < r.stop →
      ∃ m' ∈ multis, r ∈ m'.lines ∧ m'.start ≤ x ∧ x < m'.stop)
    (hlne : ∀ m ∈ multis, m.lines ≠ []) :
    ((mkBlock (s, e, c) slices).rows.length =
        if (survivors multis s e).isEmpty then 0
        else maxLevelOf (survivors multis s e) + 1) ∧
      ∀ i j : Nat, i < (mkBlock (s, e, c) slices).rows.length → j < c.length →
        cellAt (mkBlock (s, e, c) slices).dash i j =
          if ∃ r ∈ survivors multis s e,
              r.level = i ∧ r.start ≤ (s : Int) + j ∧ (s : Int) + (j : Int) < r.stop
          then '-' else ' ' := by
  have hse : (s : Int) < (e : Int) := by
    have : 1 ≤ c.length := by
      rcases c with _ | ⟨x, xs⟩
      · exact absurd rfl hc
      · simp
    push_cast [he]
    omega
  -- every row of a slice is a survivor
  have lemA : ∀ sl ∈ slices, ∀ r ∈ sl.lines, r ∈ survivors multis (s : Int) (e : Int) := by
    intro sl hsl r hr
    rcases hP5 sl hsl with ⟨m, hm, h1, h2, heq⟩
    rw [heq] at hr
    have hr' : r ∈ m.lines := hr
    obtain ⟨hc1, hc2⟩ := hcont m hm r hr'
    have hrv := hrowv m hm r hr'
    refine mem_survivors.mpr ⟨m, hm, h1, h2, hr', ?_⟩
    have := hnd m hm
    omega
  -- every survivor is a row of some slice
  have lemB : ∀ r ∈ survivors multis (s : Int) (e : Int), ∃ sl ∈ slices, r ∈ sl.lines := by
    intro r hr
    rcases mem_survivors.mp hr with ⟨m, hm, h1, h2, hrm, _⟩
    exact ⟨clipM m s e, hP4 m hm h1 h2, hrm⟩
  by_cases hsurv : (survivors multis (s : Int) (e : Int)).isEmpty
  · have hslices : slices.isEmpty = true := by
      rcases hsl : slices with _ | ⟨sl, rest⟩
      · rfl
      · exfalso
        rcases hP5 sl (hsl ▸ List.mem_cons_self sl rest) with ⟨m, hm, _, _, heq⟩
        have hlm := hlne m hm
        rcases hl : m.lines with _ | ⟨r, rs⟩
        · exact hlm hl
        · have hrsl : r ∈ sl.lines := by
            rw [heq]
            simp only [clipM]
            rw [hl]
            exact List.mem_cons_self _ _
          have := lemA sl (hsl ▸ List.mem_cons_self sl rest) r hrsl
          rw [List.isEmpty_iff] at hsurv
          rw [hsurv] at this
          simp at this
    constructor
    · rw [if_pos hsurv, (mkBlock_shape (s, e, c) slices).1, if_pos hslices]
    · intro i j hi _
      rw [(mkBlock_shape (s, e, c) slices).1, if_pos hslices] at hi
      omega
  · have hslices : ¬ slices.isEmpty = true := by
      intro habs
      rw [List.isEmpty_iff] at habs hsurv
      rcases hs : survivors multis (s : Int) (e : Int) with _ | ⟨r, rest⟩
      · exact hsurv hs
      · rcases lemB r (hs ▸ List.mem_cons_self r rest) with ⟨sl, hsl, _⟩
        rw [habs] at hsl
        simp at hsl
    have hmaxeq : maxLevels slices = maxLevelOf (survivors multis (s : Int) (e : Int)) := by
      rw [maxLevels_eq_maxLevelOf]
      apply le_antisymm
      · rw [maxLevelOf, foldl_max_le_iff]
        refine ⟨Nat.zero_le _, ?_⟩
        intro x hx
        rcases List.mem_map.mp hx with ⟨r, hr, rfl⟩
        rcases List.mem_flatMap.mp hr with ⟨sl, hsl, hrl⟩
        exact level_le_maxLevelOf (lemA sl hsl r hrl)
      · rw [maxLevelOf, foldl_max_le_iff]
        refine ⟨Nat.zero_le _, ?_⟩
        intro x hx
        rcases List.mem_map.mp hx with ⟨r, hr, rfl⟩
        rcases lemB r hr with ⟨sl, hsl, hrl⟩
        exact level_le_maxLevelOf (List.mem_flatMap.mpr ⟨sl, hsl, hrl⟩)
    have hrowslen : (mkBlock (s, e, c) slices).rows.length = maxLevels slices + 1 := by
      rw [(mkBlock_shape (s, e, c) slices).1, if_neg hslices]
    constructor
    · rw [hrowslen, if_neg hsurv, hmaxeq]
    · intro i j hi hj
      rw [hrowslen] at hi
      rw [(mkBlock_dash_rows (s, e, c) slices hslices).1]
      rw [cellAt_dashSlices (s : Int) slices _ (matP_replicate _ _) hi hj]
      rw [cellAt_replicate]
      have hiff : (∃ sl ∈ slices, ∃ r ∈ sl.lines,
          r.level = i ∧ sl.start ≤ (s : Int) + j ∧ (s : Int) + (j : Int) < sl.stop) ↔
          (∃ r ∈ survivors multis (s : Int) (e : Int),
            r.level = i ∧ r.start ≤ (s : Int) + j ∧ (s : Int) + (j : Int) < r.stop) := by
        constructor
        · rintro ⟨sl, hsl, r, hr, hlv, hx1, hx2⟩
          rcases hP5 sl hsl with ⟨m, hm, _, _, heq⟩
          have hr' : r ∈ m.lines := by rw [heq] at hr; exact hr
          obtain ⟨hc1, hc2⟩ := hcont m hm r hr'
          rw [heq] at hx1 hx2
          simp only [clipM] at hx1 hx2
          refine ⟨r, lemA sl hsl r hr, hlv, ?_, ?_⟩
          · omega
          · omega
        · rintro ⟨r, hr, hlv, hx1, hx2⟩
          rcases mem_survivors.mp hr with ⟨m', hm', _, _, hrm', _⟩
          have hx0 : (s : Int) ≤ (s : Int) + j := by omega
          have hxe : (s : Int) + (j : Int) < (e : Int) := by
            push_cast [he]
            omega
          rcases hcov m' hm' r hrm' ((s : Int) + j) hx1 (by omega) with
            ⟨m0, hm0, hrm0, hm0x1, hm0x2⟩
          refine ⟨clipM m0 s e, hP4 m0 hm0 (by omega) (by omega), r, hrm0, hlv, ?_, ?_⟩
          · simp only [clipM]
            omega
          · simp only [clipM]
            omega
      by_cases hcase : ∃ sl ∈ slices, ∃ r ∈ sl.lines,
          r.level = i ∧ sl.start ≤ (s : Int) + j ∧ (s : Int) + (j : Int) < sl.stop
      · rw [if_pos hcase, if_pos (hiff.mp hcase)]
      · rw [if_neg hcase, if_neg fun habs => hcase (hiff.mpr habs)]

theorem cellAt_writeGo {h w : Nat} :
    ∀ (chars : List Char) (lvl : Nat) (col : Int) (st : PaintState), matP h w st →
      ∀ {i j : Nat}, i < h → j < w →
        cellAt (applyWrite.writeGo lvl col chars st).mat i j =
          if lvl = i ∧ col ≤ (j : Int) ∧ (j : Int) < col + chars.length
          then chars.getD ((j : Int) - col).toNat ' '
          else cellAt st.mat i j := by
  intro chars
  induction chars with
  | nil =>
    intro lvl col st hp i j hi hj
    rw [applyWrite.writeGo]
    have hcond : ¬(lvl = i ∧ col ≤ (j : Int) ∧
        (j : Int) < col + (([] : List Char).length : Int)) := by
      rintro ⟨_, h1, h2⟩
      simp only [List.length_nil, Nat.cast_zero] at h2
      omega
    rw [if_neg hcond]
  | cons ch rest ih =>
    intro lvl col st hp i j hi hj
    rw [applyWrite.writeGo]
    rw [ih lvl (col + 1) _ (matP_setCellL hp lvl col ch) hi hj]
    rw [cellAt_setCellL hp lvl col ch hi hj]
    by_cases hli : lvl = i
    · subst hli
      by_cases hA : col + 1 ≤ (j : Int) ∧ (j : Int) < col + 1 + (rest.length : Int)
      · rw [if_pos ⟨rfl, hA.1, hA.2⟩,
          if_pos ⟨rfl, by omega, by simp only [List.length_cons]; push_cast; omega⟩]
        have hidx : ((j : Int) - col).toNat = ((j : Int) - (col + 1)).toNat + 1 := by
          omega
        rw [hidx, List.getD_cons_succ]
      · rw [if_neg fun hand => hA ⟨hand.2.1, hand.2.2⟩]
        by_cases hB : col = (j : Int)
        · rw [if_pos ⟨rfl, hB⟩,
            if_pos ⟨rfl, by omega, by simp only [List.length_cons]; push_cast; omega⟩]
          have hidx : ((j : Int) - col).toNat = 0 := by omega
          rw [hidx, List.getD_cons_zero]
        · rw [if_neg fun hand => hB hand.2, if_neg ?_]
          rintro ⟨_, h1, h2⟩
          simp only [List.length_cons] at h2
          push_cast at h2
          rcases not_and_or.mp hA with hcc | hcc
          · exact hB (by omega)
          · push_cast at hcc
            exact hB (by omega)
    · rw [if_neg fun hand => hli hand.1, if_neg fun hand => hli hand.1,
        if_neg fun hand => hli hand.1]

/-- After folding a list of label writes over a painted state, a cell covered
by no write keeps its previous value, and a cell covered by some write holds
the character of one of the writes covering it (the labels draw on top, the
dashes below are never re-painted). -/
theorem cellAt_labelFold {h w : Nat} :
    ∀ (ws : List (Nat × Int × List Char)) (st : PaintState), matP h w st →
      ∀ (i j : Nat), i < h → j < w →
        ((∀ wr ∈ ws, ¬ writeCovers wr i j) ∧
            cellAt (ws.foldl applyWrite st).mat i j = cellAt st.mat i j) ∨
          ∃ wr ∈ ws, writeCovers wr i j ∧
            cellAt (ws.foldl applyWrite st).mat i j =
              wr.2.2.getD (((j : Int) - wr.2.1).toNat) ' ' := by
  intro ws
  induction ws with
  | nil =>
    intro st hp i j hi hj
    left
    exact ⟨fun wr hwr => absurd hwr (List.not_mem_nil wr), rfl⟩
  | cons wr rest ih =>
    intro st hp i j hi hj
    rw [List.foldl_cons]
    have hgw : applyWrite st wr = applyWrite.writeGo wr.1 wr.2.1 wr.2.2 st := rfl
    have hp' : matP h w (applyWrite st wr) := by
      rw [hgw]
      exact matP_writeGo wr.2.2 st wr.1 wr.2.1 hp
    rcases ih (applyWrite st wr) hp' i j hi hj with ⟨hnone, hval⟩ | ⟨wr', hwr', hcov, hval⟩
    · by_cases hcw : writeCovers wr i j
      · right
        refine ⟨wr, List.mem_cons_self _ _, hcw, ?_⟩
        rw [hval, hgw, cellAt_writeGo wr.2.2 wr.1 wr.2.1 st hp hi hj]
        have hcw' : wr.1 = i ∧ wr.2.1 ≤ (j : Int) ∧
            (j : Int) < wr.2.1 + (wr.2.2.length : Int) := hcw
        rw [if_pos hcw']
      · left
        refine ⟨?_, ?_⟩
        · intro wr0 hwr0
          rcases List.mem_cons.mp hwr0 with rfl | hwr0'
          · exact hcw
          · exact hnone wr0 hwr0'
        · have hcw' : ¬(wr.1 = i ∧ wr.2.1 ≤ (j : Int) ∧
              (j : Int) < wr.2.1 + (wr.2.2.length : Int)) := fun hand => hcw hand
          rw [hval, hgw, cellAt_writeGo wr.2.2 wr.1 wr.2.1 st hp hi hj, if_neg hcw']
    · exact Or.inr ⟨wr', List.mem_cons_of_mem _ hwr', hcov, hval⟩

/-- One fold of the C2 properties: the label writes of a fold `[s, e)` are
exactly one per surviving row with a truthy category whose sliced range
starts at the row's true start, at the sliced start column, truncated to the
smaller of the row's sliced width and the remaining line width; and in the
final matrix the cells covered by no label write keep the dash-pass value
while cells covered by a write hold a covering write's character. -/
theorem block_C2 (s e : Nat) (c : List Char) (slices multis : List Multiline)
    (he : e = s + c.length)
    (hP5 : ∀ sl ∈ slices, ∃ m ∈ multis,
      (m.start : Int) < (e : Int) ∧ sl = clipM m s e)
    (hP4 : ∀ m ∈ multis, (m.start : Int) < (e : Int) → (s : Int) < m.stop →
      clipM m s e ∈ slices)
    (hnd : ∀ m ∈ multis, m.start < m.stop)
    (hcont : ∀ m ∈ multis, ∀ r ∈ m.lines, r.start ≤ m.start ∧ m.stop ≤ r.stop)
    (hrowv : ∀ m ∈ multis, ∀ r ∈ m.lines, r.start < r.stop)
    (hcov : ∀ m ∈ multis, ∀ r ∈ m.lines, ∀ x : Int, r.start ≤ x → x < r.stop →
      ∃ m' ∈ multis, r ∈ m'.lines ∧ m'.start ≤ x ∧ x < m'.stop) :
    (∀ (lvl : Nat) (col : Int) (chars : List Char),
      (lvl, col, chars) ∈ labelWrites s c.length slices ↔
        ∃ r ∈ survivors multis s e, typeNonempty r.type = true ∧
          max r.start (s : Int) = r.start ∧ lvl = r.level ∧
          col = r.start - (s : Int) ∧
          chars = pyTakeI (r.type.getD [])
            (min (min r.stop (e : Int) - r.start)
              ((c.length : Int) - (r.start - (s : Int))))) ∧
    (∀ i j : Nat, i < (mkBlock (s, e, c) slices).rows.length → j < c.length →
      (∀ wr ∈ labelWrites s c.length slices, ¬ writeCovers wr i j) →
      cellAt (mkBlock (s, e, c) slices).rows i j =
        cellAt (mkBlock (s, e, c) slices).dash i j) ∧
    (∀ i j : Nat, i < (mkBlock (s, e, c) slices).rows.length → j < c.length →
      ∀ wr0 ∈ labelWrites s c.length slices, writeCovers wr0 i j →
      ∃ wr ∈ labelWrites s c.length slices, writeCovers wr i j ∧
        cellAt (mkBlock (s, e, c) slices).rows i j =
          wr.2.2.getD (((j : Int) - wr.2.1).toNat) ' ') := by
  have hes : (e : Int) = (s : Int) + (c.length : Int) := by
    push_cast [he]
    ring
  refine ⟨?_, ?_⟩
  · intro lvl col chars
    constructor
    · intro hmem
      rcases mem_labelWrites.mp hmem with ⟨sl, hsl, r, hr, hty, hrs, heqw⟩
      rcases hP5 sl hsl with ⟨m, hm, hme, heqsl⟩
      have hr' : r ∈ m.lines := by rw [heqsl] at hr; exact hr
      obtain ⟨hc1, hc2⟩ := hcont m hm r hr'
      have hndm := hnd m hm
      have hrv := hrowv m hm r hr'
      have hslstart : sl.start = max m.start (s : Int) := by
        rw [heqsl]
        rfl
      rw [hslstart] at hrs
      have hrm : r.start = m.start := by omega
      have hsr : (s : Int) ≤ r.start := by omega
      have hsurv : r ∈ survivors multis (s : Int) (e : Int) :=
        mem_survivors.mpr ⟨m, hm, hme, by omega, hr', by omega⟩
      simp only [Prod.mk.injEq] at heqw
      obtain ⟨hlvl, hcol, hchars⟩ := heqw
      refine ⟨r, hsurv, hty, by omega, hlvl, ?_, ?_⟩
      · rw [hcol, hslstart]
        omega
      · rw [hchars, hslstart]
        have hsx : max m.start (s : Int) = r.start := by omega
        rw [hsx, labelTrunc]
        have harg : min (r.stop - r.start) ((c.length : Int) - (r.start - (s : Int))) =
            min (min r.stop (e : Int) - r.start)
              ((c.length : Int) - (r.start - (s : Int))) := by
          omega
        rw [harg]
    · rintro ⟨r, hsurv, hty, hmax, hlvl, hcol, hchars⟩
      rcases mem_survivors.mp hsurv with ⟨m', hm', _, _, hrm', hrng⟩
      have hrv := hrowv m' hm' r hrm'
      have hre : r.start < (e : Int) := by omega
      rcases hcov m' hm' r hrm' r.start (le_refl _) hrv with ⟨m0, hm0, hrm0, h01, h02⟩
      obtain ⟨hc1, _⟩ := hcont m0 hm0 r hrm0
      have h0s : m0.start = r.start := by omega
      have hslmem : clipM m0 (s : Int) (e : Int) ∈ slices :=
        hP4 m0 hm0 (by omega) (by omega)
      have hst : (clipM m0 (s : Int) (e : Int)).start = r.start := by
        simp only [clipM]
        omega
      refine mem_labelWrites.mpr ⟨clipM m0 (s : Int) (e : Int), hslmem, r, hrm0, hty, ?_, ?_⟩
      · rw [hst]
      · rw [hst, hlvl, hcol, hchars, labelTrunc]
        have harg : min (r.stop - r.start) ((c.length : Int) - (r.start - (s : Int))) =
            min (min r.stop (e : Int) - r.start)
              ((c.length : Int) - (r.start - (s : Int))) := by
          omega
        rw [harg]
  · by_cases hempty : slices.isEmpty
    · have hnil : slices = [] := List.isEmpty_iff.mp hempty
      subst hnil
      refine ⟨?_, ?_⟩
      · intro i j _ _ _
        rfl
      · intro i j _ _ wr0 hwr0 _
        simp [labelWrites] at hwr0
    · have hrlen : (mkBlock (s, e, c) slices).rows.length = maxLevels slices + 1 := by
        rw [(mkBlock_shape (s, e, c) slices).1, if_neg hempty]
      have hp1 : matP (maxLevels slices + 1) c.length
          (dashSlices ((s : Nat) : Int) slices
            ⟨List.replicate (maxLevels slices + 1) (List.replicate c.length ' '), []⟩) :=
        matP_dashSlices _ _ (matP_replicate _ _)
      refine ⟨?_, ?_⟩
      · intro i j hi hj hnone
        rw [hrlen] at hi
        rw [(mkBlock_dash_rows (s, e, c) slices hempty).2,
          (mkBlock_dash_rows (s, e, c) slices hempty).1]
        rcases cellAt_labelFold (labelWrites (s : Int) c.length slices) _ hp1 i j hi hj with
          ⟨_, hval⟩ | ⟨wr, hwr, hcovr, _⟩
        · exact hval
        · exact absurd hcovr (hnone wr hwr)
      · intro i j hi hj wr0 hwr0 hcov0
        rw [hrlen] at hi
        rw [(mkBlock_dash_rows (s, e, c) slices hempty).2]
        rcases cellAt_labelFold (labelWrites (s : Int) c.length slices) _ hp1 i j hi hj with
          ⟨hnone, _⟩ | ⟨wr, hwr, hcovr, hval⟩
        · exact absurd hcov0 (hnone wr0 hwr0)
        · exact ⟨wr, hwr, hcovr, hval⟩

/-! ### Lemmas on the HTML box renderer -/

theorem slice_glue (l : List Char) (a b : Nat) (h : a ≤ b) :
    (l.take b).drop a ++ l.drop b = l.drop a := by
  rw [List.drop_take]
  have hd : l.drop b = (l.drop a).drop (b - a) := by
    rw [List.drop_drop]
    congr 1
    omega
  rw [hd, List.take_append_drop]

theorem pyIndex_mono (n : Nat) {x y : Int} (hx : 0 ≤ x) (hxy : x ≤ y) :
    pyIndex n x ≤ pyIndex n y := by
  unfold pyIndex
  rw [if_neg (not_lt.mpr hx), if_neg (not_lt.mpr (le_trans hx hxy))]
  exact min_le_min (Int.toNat_le_toNat hxy) (le_refl n)

theorem joinTexts_cons_tag (s : List Char) (ps : List HtmlPiece) :
    joinTexts (.tag s :: ps) = joinTexts ps := rfl

theorem joinTexts_cons_text (s : List Char) (ps : List HtmlPiece) :
    joinTexts (.text s :: ps) = s ++ joinTexts ps := rfl

theorem joinTexts_append_tag (ps : List HtmlPiece) (s : List Char) :
    joinTexts (ps ++ [.tag s]) = joinTexts ps := by
  unfold joinTexts
  rw [List.filterMap_append]
  simp

theorem chain'_of_pairwiseSep :
    ∀ l : List Span, pairwiseSep l = true →
      List.Chain' (fun a b => a.stop ≤ b.start) l := by
  intro l
  induction l with
  | nil => intro _; exact List.chain'_nil
  | cons a rest ih =>
    intro h
    cases rest with
    | nil => exact List.chain'_singleton a
    | cons b rest' =>
      have h' : (decide (a.stop ≤ b.start) && pairwiseSep (b :: rest')) = true := h
      rw [Bool.and_eq_true, decide_eq_true_eq] at h'
      exact List.chain'_cons.mpr ⟨h'.1, ih h'.2⟩

/-- The head of the span list starts at or after `prev`. -/
theorem boxPieces_join :
    ∀ (sps : List Span) (txt : List Char) (prev : Int), 0 ≤ prev →
      (∀ sp ∈ sps, sp.start < sp.stop) →
      (∀ sp ∈ sps, 0 ≤ sp.start) →
      List.Chain' (fun a b => a.stop ≤ b.start) sps →
      (∀ sp, sps.head? = some sp → prev ≤ sp.start) →
      joinTexts (boxPieces false txt prev sps) = txt.drop (pyIndex txt.length prev) := by
  intro sps
  induction sps with
  | nil =>
    intro txt prev _ _ _ _ _
    simp [boxPieces, joinTexts, pySliceFrom]
  | cons sp rest ih =>
    intro txt prev hprev hval hpos hchain hhead
    have h1 : prev ≤ sp.start := hhead sp rfl
    have h2 : sp.start < sp.stop := hval sp (List.mem_cons_self _ _)
    have h3 : 0 ≤ sp.start := hpos sp (List.mem_cons_self _ _)
    have hstop : (0 : Int) ≤ sp.stop := le_of_lt (lt_of_le_of_lt h3 h2)
    rw [boxPieces]
    simp only [Bool.false_and, if_neg (Bool.false_ne_true)]
    rw [joinTexts_cons_text, joinTexts_cons_tag, joinTexts_cons_text]
    have hrec : joinTexts (List.nil ++ (HtmlPiece.tag ['<', '/', 's', 'p', 'a', 'n', '>'] ::
        boxPieces false txt sp.stop rest)) =
        txt.drop (pyIndex txt.length sp.stop) := by
      rw [List.nil_append, joinTexts_cons_tag]
      refine ih txt sp.stop hstop (fun x hx => hval x (List.mem_cons_of_mem _ hx))
        (fun x hx => hpos x (List.mem_cons_of_mem _ hx)) hchain.tail ?_
      intro x hx
      cases rest with
      | nil => simp at hx
      | cons y ys =>
        have hyx : y = x := by simpa using hx
        subst hyx
        exact (List.chain'_cons.mp hchain).1
    rw [hrec]
    rw [pySliceII, pySliceII]
    rw [slice_glue txt (pyIndex txt.length sp.start) (pyIndex txt.length sp.stop)
      (pyIndex_mono _ h3 (le_of_lt h2))]
    rw [slice_glue txt (pyIndex txt.length prev) (pyIndex txt.length sp.start)
      (pyIndex_mono _ hprev h1)]

/-- C9, with all span starts additionally non-negative: the HTML box renderer
over pairwise non-overlapping spans reproduces the text exactly; and on a
concrete overlapping input it yields the overlapped character twice, because
it iterates the sorted spans directly and never consults the layout groups. -/
theorem claim_C9 (v : PyVal) (spans : List Span)
    (hval : ∀ sp ∈ spans, sp.start < sp.stop)
    (hpos : ∀ sp ∈ spans, 0 ≤ sp.start)
    (hsep : pairwiseSep (mkMarkup v spans).spans = true) :
    joinTexts (boxAsHtml (mkMarkup v spans)) = (mkMarkup v spans).text ∧
      (joinTexts (boxAsHtml (mkMarkup (.str ['a', 'b', 'c'])
          [⟨0, 2, Option.none⟩, ⟨1, 3, Option.none⟩])) = ['a', 'b', 'b', 'c'] ∧
        (mkMarkup (.str ['a', 'b', 'c'])
          [⟨0, 2, Option.none⟩, ⟨1, 3, Option.none⟩]).text = ['a', 'b', 'c']) := by
  constructor
  · have hperm : (mkMarkup v spans).spans.Perm spans := List.perm_insertionSort _ _
    have hval' : ∀ sp ∈ (mkMarkup v spans).spans, sp.start < sp.stop :=
      fun sp hsp => hval sp (hperm.mem_iff.mp hsp)
    have hpos' : ∀ sp ∈ (mkMarkup v spans).spans, 0 ≤ sp.start :=
      fun sp hsp => hpos sp (hperm.mem_iff.mp hsp)
    rw [boxAsHtml, joinTexts_cons_tag, joinTexts_append_tag]
    rw [boxPieces_join _ _ 0 (le_refl 0) hval' hpos' (chain'_of_pairwiseSep _ hsep)
      (fun sp hsp => le_trans (le_refl 0) (hpos' sp (List.mem_of_mem_head? hsp)))]
    simp [pyIndex]
  · constructor
    · decide
    · decide

theorem claim_C9_witness :
    joinTexts (boxAsHtml (mkMarkup (.str ['h', 'i', '!'])
        [⟨0, 1, some ['A']⟩, ⟨2, 3, some ['B']⟩])) =
      (mkMarkup (.str ['h', 'i', '!']) [⟨0, 1, some ['A']⟩, ⟨2, 3, some ['B']⟩]).text :=
  (claim_C9 (.str ['h', 'i', '!']) [⟨0, 1, some ['A']⟩, ⟨2, 3, some ['B']⟩]
    (by decide) (by decide) (by decide)).1

/-- C9 as stated is false without a bound on the offsets: two valid,
sorted, pairwise non-overlapping spans with negative starts make Python's
negative-index slicing yield a character twice. -/
theorem claim_C9_counterexample :
    pairwiseSep (mkMarkup (.str ['a', 'b', 'c'])
          [⟨-2, -1, Option.none⟩, ⟨1, 2, Option.none⟩]).spans = true ∧
      (∀ sp ∈ (mkMarkup (.str ['a', 'b', 'c'])
          [⟨-2, -1, Option.none⟩, ⟨1, 2, Option.none⟩]).spans, sp.start < sp.stop) ∧
      joinTexts (boxAsHtml (mkMarkup (.str ['a', 'b', 'c'])
          [⟨-2, -1, Option.none⟩, ⟨1, 2, Option.none⟩])) ≠
        (mkMarkup (.str ['a', 'b', 'c'])
          [⟨-2, -1, Option.none⟩, ⟨1, 2, Option.none⟩]).text := by
  refine ⟨by decide, by decide, by decide⟩

/-- C1: on every validly constructed ASCII document whose spans also have
non-negative starts, each fold `[b.start, b.stop)` carries exactly the
clips of the groups intersecting it, the matrix height is
`1 + max(row.level)` over the surviving rows (and `0` when none survive),
and a dash sits at `(i, j)` exactly when some surviving row of level `i`
covers absolute column `b.start + j`. -/
theorem claim_C1 (text : PyVal) (spans : List Span) (width : Nat)
    (hw : 1 ≤ width) (hval : ∀ sp ∈ spans, sp.start < sp.stop)
    (hnn : ∀ sp ∈ spans, 0 ≤ sp.start) :
    ∀ b ∈ asciiBlocks (mkAscii text spans width),
      (∀ sl ∈ b.slices, ∃ m ∈ getMultilines (spans.insertionSort spanLe),
        (m.start : Int) < (b.stop : Int) ∧ (b.start : Int) < m.stop ∧
          sl = clipM m b.start b.stop) ∧
      (∀ m ∈ getMultilines (spans.insertionSort spanLe),
        (m.start : Int) < (b.stop : Int) → (b.start : Int) < m.stop →
          clipM m b.start b.stop ∈ b.slices) ∧
      (b.rows.length =
        if (survivors (getMultilines (spans.insertionSort spanLe)) b.start b.stop).isEmpty
        then 0
        else maxLevelOf
          (survivors (getMultilines (spans.insertionSort spanLe)) b.start b.stop) + 1) ∧
      (∀ i j : Nat, i < b.rows.length → j < b.content.length →
        cellAt b.dash i j =
          if ∃ r ∈ survivors (getMultilines (spans.insertionSort spanLe)) b.start b.stop,
              r.level = i ∧ r.start ≤ (b.start : Int) + j ∧ (b.start : Int) + (j : Int) < r.stop
          then '-' else ' ') := by
  intro b hb
  have hval' := sorted_valid hval
  have hnn' : ∀ sp ∈ spans.insertionSort spanLe, 0 ≤ sp.start :=
    fun sp hsp => hnn sp ((List.perm_insertionSort _ _).mem_iff.mp hsp)
  have hb' : b ∈ renderBlocks (getMultilines (spans.insertionSort spanLe))
      (wrapperCall width (pyStr text)) := hb
  obtain ⟨c, heq, hcne, hbe, hbc, hP3, hP4⟩ :=
    renderBlocks_package_pos (wrapperCall width (pyStr text))
      (getMultilines (spans.insertionSort spanLe))
      (getMultilines (spans.insertionSort spanLe)) 0 _
      (docMultis_nondeg _) (docMultis_pairwise _)
      ⟨[], rfl, by simp⟩ (docMultis_nonneg hval' hnn')
      (wrapperCall_chain width (pyStr text))
      (wrapperCall_content_ne hw _) b hb'
  have hbl := block_C1 b.start b.stop c b.slices
    (getMultilines (spans.insertionSort spanLe)) hcne hbe hP3 hP4
    (docMultis_nondeg _) (docMultis_contain _) (docMultis_rowvalid hval')
    (docMultis_cover _) (docMultis_lines_ne _)
  obtain ⟨h1, h2⟩ := hbl
  rw [← heq] at h1 h2
  refine ⟨hP3, hP4, h1, ?_⟩
  intro i j hi hj
  rw [hbc, replaceTabs_length] at hj
  exact h2 i j hi hj

/-- C1 witness: the spec's own two-span document renders with the claimed
height on every fold. -/
theorem claim_C1_witness :
    (1 ≤ 70 ∧
      (∀ sp ∈ [Span.mk 0 2 (some ['X']), Span.mk 1 4 (some ['Y'])], sp.start < sp.stop) ∧
      (∀ sp ∈ [Span.mk 0 2 (some ['X']), Span.mk 1 4 (some ['Y'])], 0 ≤ sp.start)) ∧
      ∀ b ∈ asciiBlocks (mkAscii (.str ['a', 'b', ' ', 'c', 'd'])
          [Span.mk 0 2 (some ['X']), Span.mk 1 4 (some ['Y'])] 70),
        b.rows.length =
          if (survivors (getMultilines
              ([Span.mk 0 2 (some ['X']), Span.mk 1 4 (some ['Y'])].insertionSort spanLe))
              b.start b.stop).isEmpty
          then 0
          else maxLevelOf (survivors (getMultilines
              ([Span.mk 0 2 (some ['X']), Span.mk 1 4 (some ['Y'])].insertionSort spanLe))
              b.start b.stop) + 1 :=
  ⟨⟨by decide, by decide, by decide⟩,
    fun b hb => (claim_C1 (.str ['a', 'b', ' ', 'c', 'd'])
      [Span.mk 0 2 (some ['X']), Span.mk 1 4 (some ['Y'])] 70
      (by decide) (by decide) (by decide) b hb).2.2.1⟩

/-- C1 as stated is false for spans with negative offsets: the span
`(-2, -1)` on the text `"a"` survives on no fold, yet the renderer still
emits one blank annotation row, so the height is not `0` as "emit nothing
further" demands. -/
theorem claim_C1_counterexample :
    (∀ sp ∈ [Span.mk (-2) (-1) Option.none], sp.start < sp.stop) ∧
      ∃ b ∈ asciiBlocks (mkAscii (.str ['a']) [Span.mk (-2) (-1) Option.none] 70),
        (survivors (getMultilines ([Span.mk (-2) (-1) Option.none].insertionSort spanLe))
            b.start b.stop).isEmpty = true ∧ b.rows.length ≠ 0 := by
  refine ⟨by decide, by decide⟩

/-- C2: on every validly constructed ASCII document, each fold's label
writes are exactly one per surviving row with a truthy category whose
sliced range starts at the row's true (unsliced) start, placed at the
sliced start column and truncated to the smaller of the row's sliced width
and the remaining line width; and since every label write happens after the
whole dash pass, a matrix cell covered by no label write keeps its
dash-pass value while a cell covered by a label write holds a covering
write's character, never a later dash. -/
theorem claim_C2 (text : PyVal) (spans : List Span) (width : Nat)
    (hw : 1 ≤ width) (hval : ∀ sp ∈ spans, sp.start < sp.stop) :
    ∀ b ∈ asciiBlocks (mkAscii text spans width),
      (∀ (lvl : Nat) (col : Int) (chars : List Char),
        (lvl, col, chars) ∈ labelWrites b.start b.content.length b.slices ↔
          ∃ r ∈ survivors (getMultilines (spans.insertionSort spanLe)) b.start b.stop,
            typeNonempty r.type = true ∧ max r.start (b.start : Int) = r.start ∧
            lvl = r.level ∧ col = r.start - (b.start : Int) ∧
            chars = pyTakeI (r.type.getD [])
              (min (min r.stop (b.stop : Int) - r.start)
                ((b.content.length : Int) - (r.start - (b.start : Int))))) ∧
      (∀ i j : Nat, i < b.rows.length → j < b.content.length →
        (∀ wr ∈ labelWrites b.start b.content.length b.slices, ¬ writeCovers wr i j) →
        cellAt b.rows i j = cellAt b.dash i j) ∧
      (∀ i j : Nat, i < b.rows.length → j < b.content.length →
        ∀ wr0 ∈ labelWrites b.start b.content.length b.slices, writeCovers wr0 i j →
        ∃ wr ∈ labelWrites b.start b.content.length b.slices, writeCovers wr i j ∧
          cellAt b.rows i j = wr.2.2.getD (((j : Int) - wr.2.1).toNat) ' ') := by
  intro b hb
  have hval' := sorted_valid hval
  have hb' : b ∈ renderBlocks (getMultilines (spans.insertionSort spanLe))
      (wrapperCall width (pyStr text)) := hb
  obtain ⟨c, heq, hcne, hbe, hbc, hP3, hP4⟩ :=
    renderBlocks_package (wrapperCall width (pyStr text))
      (getMultilines (spans.insertionSort spanLe))
      (getMultilines (spans.insertionSort spanLe)) 0 _
      (docMultis_nondeg _) (docMultis_pairwise _)
      ⟨[], rfl, by simp⟩ (wrapperCall_chain width (pyStr text))
      (wrapperCall_content_ne hw _) b hb'
  obtain ⟨h1, h2, h3⟩ := block_C2 b.start b.stop c b.slices
    (getMultilines (spans.insertionSort spanLe)) hbe hP3 hP4
    (docMultis_nondeg _) (docMultis_contain _) (docMultis_rowvalid hval')
    (docMultis_cover _)
  rw [← heq] at h2 h3
  have hlen : b.content.length = c.length := by
    rw [hbc, replaceTabs_length]
  rw [hlen]
  exact ⟨h1, h2, h3⟩

/-- C2 witness: the spec's wrap-boundary scenario — the interval `(3, 10)`
under width `5` gets its label written only where the sliced range starts
at the row's true start. -/
theorem claim_C2_witness :
    (1 ≤ 5 ∧ ∀ sp ∈ [Span.mk 3 10 (some ['T'])], sp.start < sp.stop) ∧
      ∀ b ∈ asciiBlocks (mkAscii
          (.str ['a', 'b', 'c', 'd', 'e', 'f', 'g', 'h', 'i', 'j'])
          [Span.mk 3 10 (some ['T'])] 5),
        ∀ (lvl : Nat) (col : Int) (chars : List Char),
          (lvl, col, chars) ∈ labelWrites b.start b.content.length b.slices ↔
            ∃ r ∈ survivors (getMultilines
                ([Span.mk 3 10 (some ['T'])].insertionSort spanLe)) b.start b.stop,
              typeNonempty r.type = true ∧ max r.start (b.start : Int) = r.start ∧
              lvl = r.level ∧ col = r.start - (b.start : Int) ∧
              chars = pyTakeI (r.type.getD [])
                (min (min r.stop (b.stop : Int) - r.start)
                  ((b.content.length : Int) - (r.start - (b.start : Int)))) :=
  ⟨⟨by decide, by decide⟩,
    fun b hb => (claim_C2 (.str ['a', 'b', 'c', 'd', 'e', 'f', 'g', 'h', 'i', 'j'])
      [Span.mk 3 10 (some ['T'])] 5 (by decide) (by decide) b hb).1⟩

end Ipymarkup
